import Mathlib

/-!
# A shallow embedding of the BabySAT CDCL solver (babysat-watches.cpp)

This file embeds the core of the watched-literal CDCL solver from
`src/babysat-watches.cpp` as executable Lean definitions and proves or
refutes the specification claims about it.

Modeling conventions:

* Machine values: `values` maps each literal (a nonzero `Int`) to `-1`
  (false), `0` (unassigned) or `1` (true), exactly as the C++ `signed char`
  array; literal-indexed C++ arrays with negative offsets become total
  functions `Int → _`, variable-indexed arrays become `Nat → _`.
* C++ `assert` statements are modeled as explicit failure: an operation
  returns `none` precisely where the assertion-checked build would abort.
* The solver erases entries of `watched[-lit]` (and of the `learned`
  vector during minimization) while a range-based for loop is iterating
  the same `std::vector` — the code itself remarks that this "probably
  causes problems".  We model the deterministic behaviour of the usual
  contiguous-buffer implementation: the loop iterates physical positions
  `0 .. n0-1` of a fixed-capacity buffer; `erase(remove(...))` shifts the
  surviving elements left and leaves the old values in the positions past
  the new size.  We carry the current vector contents together with the
  stale tail, whose concatenation is the physical buffer.
* The unsigned wrap-around of `level - 1` (a 32-bit `unsigned`) in the
  backjump-counting line is modeled explicitly.
* The `matrix` occurrence lists and the statistics `propagations`/`reports`
  counters are omitted: nothing else in the solver core reads them.
-/

namespace BabySat

/-- A clause as in the C++ `struct Clause`: the literal sequence plus the
two watched literals and the cached blocker literal (all `0` when unset). -/
structure Clause where
  lits : List Int
  watch1 : Int
  watch2 : Int
  blocker : Int
deriving Repr, DecidableEq

/-- The whole solver state: assignment store, clause store, watch index,
trail, control stack and statistics, mirroring the C++ globals. -/
structure State where
  numVars : Nat
  values : Int → Int
  levels : Nat → Nat
  reasons : Nat → Option Nat
  stamped : Nat → Nat
  clauses : List Clause
  watched : Int → List Nat
  trail : List Int
  propagated : Nat
  control : List Nat
  level : Nat
  searched : Int
  conflicts : Nat
  limit : Nat
  backjumps : Nat
  decisions : Nat
  fixedCount : Nat
  emptyClause : Bool

/-- The state after `initialize()`: everything zeroed, `searched = 1`,
conflict limit at its `SIZE_MAX` default. -/
def initState (n : Nat) : State where
  numVars := n
  values := fun _ => 0
  levels := fun _ => 0
  reasons := fun _ => none
  stamped := fun _ => 0
  clauses := []
  watched := fun _ => []
  trail := []
  propagated := 0
  control := []
  level := 0
  searched := 1
  conflicts := 0
  limit := 2 ^ 64 - 1
  backjumps := 0
  decisions := 0
  fixedCount := 0
  emptyClause := false

/-- In-place update of the clause with handle `ci` (C++ mutates the clause
object through its pointer). -/
def modifyClause (ci : Nat) (f : Clause → Clause) (s : State) : State :=
  match s.clauses.get? ci with
  | some c => { s with clauses := s.clauses.set ci (f c) }
  | none => s

/-- `assign(lit, reason)`: make `lit` true, record level and reason, push
onto the trail.  The C++ assertions (`lit` nonzero, both literal cells
unassigned) are modeled as failure. -/
def assignLit (lit : Int) (reason : Option Nat) (s : State) : Option State :=
  if lit = 0 then none
  else if s.values lit ≠ 0 then none
  else if s.values (-lit) ≠ 0 then none
  else some { s with
    values := fun x => if x = lit then 1 else if x = -lit then -1 else s.values x
    levels := fun v => if v = lit.natAbs then s.level else s.levels v
    reasons := fun v => if v = lit.natAbs then reason else s.reasons v
    trail := s.trail ++ [lit]
    fixedCount := if s.level = 0 then s.fixedCount + 1 else s.fixedCount }

/-- Append handle `ci` to `watched[l]` (guarded by `l ≠ 0` as in the code). -/
def pushWatch (l : Int) (ci : Nat) (s : State) : State :=
  if l = 0 then s
  else { s with watched := fun x => if x = l then s.watched l ++ [ci] else s.watched x }

/-- `add_clause(literals)`: push the clause, handle the empty and unit
cases, then install the two watches on `literals[0]`/`literals[1]` for
size ≥ 2 and set the blocker to `literals[0]`.  Returns the new handle. -/
def addClause (lits : List Int) (s : State) : Option (Nat × State) :=
  let ci := s.clauses.length
  let s1 : State := { s with
    clauses := s.clauses ++ [{ lits := lits, watch1 := 0, watch2 := 0, blocker := 0 }] }
  let afterUnit : Option State :=
    match lits with
    | [] => some { s1 with emptyClause := true }
    | [u] =>
      if s1.values u = 0 then assignLit u none s1
      else if s1.values u < 0 then some { s1 with emptyClause := true }
      else some s1
    | _ :: _ :: _ => some s1
  match afterUnit with
  | none => none
  | some s2 =>
    let s3 : State :=
      match lits with
      | a :: b :: _ =>
        pushWatch b ci (pushWatch a ci
          (modifyClause ci (fun c => { c with watch1 := a, watch2 := b }) s2))
      | _ => s2
    some (ci, modifyClause ci (fun c => { c with blocker := lits.headD 0 }) s3)

/-- One step of `erase(remove(watched[-lit], ci))` under the buffer model:
all occurrences of `ci` are removed from the live vector and the vacated
physical positions keep their old contents (they join the stale tail). -/
def eraseWatched (negLit : Int) (ci : Nat) (stale : List Nat) (s : State) :
    List Nat × State :=
  let cur := s.watched negLit
  let newCur := cur.filter (fun x => x ≠ ci)
  (cur.drop newCur.length ++ stale,
   { s with watched := fun x => if x = negLit then newCur else s.watched x })

/-- The inner `for (auto other : *c)` loop of `propagate` for one clause:
update the blocker on every true literal, and on the first non-false
non-watched literal move the watch from `-lit` to it. -/
def scanLits (negLit : Int) (check : Int) (ci : Nat) :
    List Int → Bool → List Nat → State → Bool × List Nat × State
  | [], found, stale, s => (found, stale, s)
  | other :: rest, found, stale, s =>
    let sA := if s.values other = 1
      then modifyClause ci (fun c => { c with blocker := other }) s else s
    match sA.clauses.get? ci with
    | none => scanLits negLit check ci rest found stale sA
    | some c =>
      if found = false ∧ sA.values other > -1 ∧ c.watch1 ≠ other ∧ c.watch2 ≠ other then
        let es := eraseWatched negLit ci stale sA
        let sB := pushWatch other ci es.2
        let sC := modifyClause ci (fun c2 =>
          let c3 := if check = c2.watch1 then { c2 with watch2 := other } else c2
          if check = c3.watch2 then { c3 with watch1 := other } else c3) sB
        scanLits negLit check ci rest true es.1 sC
      else scanLits negLit check ci rest found stale sA

/-- Processing of one clause handle taken from `watched[-lit]`: blocker
shortcut, satisfied-other-watch shortcut, watch replacement scan, then
conflict detection or unit assignment.  Returns `some (confl, stale, s)`
with `confl` the conflicting handle if any; `none` models assertion
failure inside `assign`. -/
def processClause (negLit : Int) (ci : Nat) (stale : List Nat) (s : State) :
    Option (Option Nat × List Nat × State) :=
  match s.clauses.get? ci with
  | none => none
  | some c =>
    if s.values c.blocker = 1 then some (none, stale, s)
    else
      let check := if c.watch1 = negLit then c.watch2 else c.watch1
      if s.values check = 1 then some (none, stale, s)
      else
        match scanLits negLit check ci c.lits false stale s with
        | (found, stale2, s2) =>
          if found then some (none, stale2, s2)
          else if s2.values check = -1 then
            some (some ci, stale2, { s2 with conflicts := s2.conflicts + 1 })
          else if s2.values check = 0 then
            match assignLit check (some ci) s2 with
            | some s3 => some (none, stale2, s3)
            | none => none
          else some (none, stale2, s2)

/-- The enumeration of `watched[-lit]` by a range-based for loop whose end
iterator was captured before any erasure: physical position `i` of the
buffer `watched[-lit] ++ stale` is read while `i < n0`. -/
def enumWatches (negLit : Int) : Nat → Nat → List Nat → State →
    Option (Option Nat × State)
  | 0, _, _, s => some (none, s)
  | rem + 1, i, stale, s =>
    match (s.watched negLit ++ stale).get? i with
    | none => none
    | some ci =>
      match processClause negLit ci stale s with
      | none => none
      | some (some confl, _, s2) => some (some confl, s2)
      | some (none, stale2, s2) => enumWatches negLit rem (i + 1) stale2 s2

/-- Propagation of a single trail literal: advance the cursor and visit
every clause watching its negation. -/
def propLitStep (s : State) : Option (Option Nat × State) :=
  match s.trail.get? s.propagated with
  | none => none
  | some lit =>
    let s1 : State := { s with propagated := s.propagated + 1 }
    enumWatches (-lit) ((s1.watched (-lit)).length) 0 [] s1

/-- `propagate()`: drain the trail from the propagation cursor; stop at the
first conflict.  The fuel bounds the number of trail literals processed;
`none` is fuel exhaustion or a modeled assertion failure. -/
def propagateF : Nat → State → Option (Option Nat × State)
  | 0, _ => none
  | fuel + 1, s =>
    if s.propagated = s.trail.length then some (none, s)
    else
      match propLitStep s with
      | none => none
      | some (some ci, s2) => some (some ci, s2)
      | some (none, s2) => propagateF fuel s2

/-- Run exactly up to `k` single-literal propagation steps (used to observe
intermediate propagation states). -/
def propagateLits : Nat → State → Option State
  | 0, s => some s
  | k + 1, s =>
    if s.propagated = s.trail.length then some s
    else
      match propLitStep s with
      | none => none
      | some (_, s2) => propagateLits k s2

/-- The `while (values[searched]) searched++` scan of `decide`, with the
`assert(searched <= numVars)` modeled as failure. -/
def findUnassigned (s : State) : Nat → Int → Option Int
  | 0, _ => none
  | fuel + 1, v =>
    if v > (s.numVars : Int) then none
    else if s.values v = 0 then some v
    else findUnassigned s fuel (v + 1)

/-- `decide()`: pick the smallest unassigned variable starting from the
`searched` cursor, open a new level, clear the stamp, assign positively. -/
def decideF (s : State) : Option State :=
  let s1 : State := { s with decisions := s.decisions + 1 }
  match findUnassigned s1 (s1.numVars + 2) s1.searched with
  | none => none
  | some v =>
    let s2 : State := { s1 with
      searched := v
      level := s1.level + 1
      control := s1.control ++ [s1.trail.length]
      stamped := fun i => if i = v.natAbs then 0 else s1.stamped i }
    assignLit v none s2

/-- `unassign(lit)`: clear both literal cells and lower the `searched`
cursor; the preconditions are the C++ assertions. -/
def unassignLit (lit : Int) (s : State) : Option State :=
  if lit = 0 then none
  else if s.values lit ≠ 1 then none
  else if s.values (-lit) ≠ -1 then none
  else some { s with
    values := fun x => if x = lit then 0 else if x = -lit then 0 else s.values x
    searched := if (lit.natAbs : Int) < s.searched then (lit.natAbs : Int) else s.searched }

/-- The `while (assigned != before) unassign(*--assigned)` loop of
`backtrack`. -/
def popTrail : Nat → Nat → State → Option State
  | 0, _, _ => none
  | fuel + 1, before, s =>
    if s.trail.length = before then some s
    else
      match s.trail.getLast? with
      | none => none
      | some lit =>
        match unassignLit lit { s with trail := s.trail.dropLast } with
        | some s2 => popTrail fuel before s2
        | none => none

/-- `backtrack(new_level)`: unassign the trail suffix past
`control[new_level]`, truncate the control stack, reset the cursor. -/
def backtrackF (newLevel : Nat) (s : State) : Option State :=
  if s.level ≤ newLevel then none
  else
    match s.control.get? newLevel with
    | none => none
    | some before =>
      match popTrail (s.trail.length + 1) before s with
      | none => none
      | some s2 =>
        some { s2 with
          control := s2.control.take newLevel
          propagated := before
          level := newLevel }

/-- `analyze_literal`: stamp an unseen literal of nonzero level and count
it on the conflict level or below; the two C++ assertions are failures. -/
def analyzeLit (lit : Int) (acc : State × Nat × Nat) : Option (State × Nat × Nat) :=
  let idx := lit.natAbs
  if acc.1.values lit = 0 then none
  else
    let lvl := acc.1.levels idx
    if lvl = 0 ∨ acc.1.stamped idx = acc.1.conflicts then some acc
    else if 0 ≤ acc.1.values lit then none
    else
      let s2 : State := { acc.1 with
        stamped := fun v => if v = idx then acc.1.conflicts else acc.1.stamped v }
      if lvl = acc.1.level then some (s2, acc.2.1 + 1, acc.2.2)
      else some (s2, acc.2.1, acc.2.2 + 1)

/-- `analyze_literal` folded over the literals of one clause. -/
def analyzeClauseLits : List Int → State × Nat × Nat → Option (State × Nat × Nat)
  | [], acc => some acc
  | l :: rest, acc =>
    match analyzeLit l acc with
    | none => none
    | some acc2 => analyzeClauseLits rest acc2

/-- The `while (current > 1)` backward trail walk of `analyze`.  `p1` is
one past the position the C++ `copy` pointer reads next; reading below the
trail start is a modeled failure. -/
def walkCurrent : Nat → State → Nat → Nat → Option (Nat × State × Nat × Nat)
  | 0, s, curC, low => if curC ≤ 1 then some (0, s, curC, low) else none
  | p + 1, s, curC, low =>
    if curC ≤ 1 then some (p + 1, s, curC, low)
    else
      match s.trail.get? p with
      | none => none
      | some lit =>
        if s.stamped lit.natAbs = s.conflicts then
          match s.reasons lit.natAbs with
          | some r =>
            match s.clauses.get? r with
            | none => none
            | some c =>
              match analyzeClauseLits c.lits (s, curC, low) with
              | none => none
              | some (s2, c2, l2) => walkCurrent p s2 (c2 - 1) l2
          | none => walkCurrent p s (curC - 1) low
        else walkCurrent p s curC low

/-- The `while (stamped[abs(*copy)] != conflicts) copy--` scan locating the
UIP; returns one past the position of the stamped literal found. -/
def skipUnstamped : Nat → State → Option Nat
  | 0, _ => none
  | p + 1, s =>
    match s.trail.get? p with
    | none => none
    | some lit =>
      if s.stamped lit.natAbs = s.conflicts then some (p + 1)
      else skipUnstamped p s

/-- The `while (lower)` walk collecting the negations of the stamped
lower-level literals and the backjump level. -/
def walkLower : Nat → State → Nat → List Int → Nat → Option (List Int × Nat)
  | 0, _, low, learned, bj => if low = 0 then some (learned, bj) else none
  | p + 1, s, low, learned, bj =>
    if low = 0 then some (learned, bj)
    else
      match s.trail.get? p with
      | none => none
      | some lit =>
        if s.stamped lit.natAbs = s.conflicts then
          walkLower p s (low - 1) (learned ++ [-lit]) (max bj (s.levels lit.natAbs))
        else walkLower p s low learned bj

/-- Intermediate result of `analyze` just before minimization: the state
with all stamps placed, the candidate learned clause (without the UIP),
the backjump level and the UIP literal. -/
structure AnalyzeMid where
  st : State
  learned : List Int
  backjump : Nat
  uip : Int

/-- The stamping and trail-walking portion of `analyze`, producing the
candidate learned clause. -/
def analyzeCandidate (s : State) (ci : Nat) : Option AnalyzeMid :=
  match s.clauses.get? ci with
  | none => none
  | some c =>
    match analyzeClauseLits c.lits (s, 0, 0) with
    | none => none
    | some (s1, curC, low) =>
      match walkCurrent s1.trail.length s1 curC low with
      | none => none
      | some (p1, s2, _, low2) =>
        match skipUnstamped p1 s2 with
        | none => none
        | some pu =>
          match s2.trail.get? (pu - 1) with
          | none => none
          | some uip =>
            match walkLower (pu - 1) s2 low2 [] 0 with
            | none => none
            | some (learned, bj) =>
              some { st := s2, learned := learned, backjump := bj, uip := uip }

/-- One `erase(remove(learned, lit))` on the candidate vector under the
buffer model. -/
def eraseLearned (lit : Int) (cur stale : List Int) : List Int × List Int :=
  let newCur := cur.filter (fun x => x ≠ lit)
  (newCur, cur.drop newCur.length ++ stale)

/-- The self-subsumption check of one candidate literal: every literal of
the antecedent over a different variable must currently be in the
candidate vector (by exact value; there is no level-0 exemption). -/
def minimizeCheck (s : State) (idx : Nat) (c : Clause) (cur : List Int) : Bool :=
  c.lits.all (fun other => other.natAbs == idx || cur.contains other)

/-- The minimization loop of `analyze`, iterating physical positions of
the `learned` vector while erasing from it. -/
def minimizeLoop (s : State) : Nat → Nat → List Int → List Int → List Int
  | 0, _, cur, _ => cur
  | rem + 1, i, cur, stale =>
    match (cur ++ stale).get? i with
    | none => cur
    | some lit =>
      match s.reasons lit.natAbs with
      | none => minimizeLoop s rem (i + 1) cur stale
      | some r =>
        match s.clauses.get? r with
        | none => minimizeLoop s rem (i + 1) cur stale
        | some c =>
          if minimizeCheck s lit.natAbs c cur then
            let es := eraseLearned lit cur stale
            minimizeLoop s rem (i + 1) es.1 es.2
          else minimizeLoop s rem (i + 1) cur stale

/-- The whole minimization pass over a candidate learned clause. -/
def minimizeLearned (learned : List Int) (s : State) : List Int :=
  minimizeLoop s learned.length 0 learned []

/-- The unsigned 32-bit `level - 1` used by the backjump counting line. -/
def usub1 (n : Nat) : Nat := if n = 0 then 2 ^ 32 - 1 else n - 1

/-- `analyze(conflict)`: candidate computation, minimization, appending the
negated UIP, backjump, learning, asserting the UIP, and the (post-
backtrack) backjump-counter update. -/
def analyzeF (s : State) (ci : Nat) : Option State :=
  match analyzeCandidate s ci with
  | none => none
  | some mid =>
    let learned2 := minimizeLearned mid.learned mid.st
    let learned3 := learned2 ++ [-mid.uip]
    match backtrackF mid.backjump mid.st with
    | none => none
    | some s3 =>
      let assigned : Option State :=
        if learned3.length > 1 then
          match addClause learned3 s3 with
          | none => none
          | some (nci, s4) => assignLit (-mid.uip) (some nci) s4
        else assignLit (-mid.uip) none s3
      match assigned with
      | none => none
      | some s5 =>
        if mid.backjump < usub1 s5.level then
          some { s5 with backjumps := s5.backjumps + 1 }
        else some s5

/-- One iteration body of the `solve()` driver loop, without the return
paths (used to observe intermediate driver states). -/
def loopBody (pf : Nat) (s : State) : Option State :=
  match propagateF pf s with
  | none => none
  | some (some ci, s1) => if s1.level = 0 then none else analyzeF s1 ci
  | some (none, s1) =>
    if s1.trail.length = s1.numVars then none
    else if s1.limit ≤ s1.conflicts then none
    else decideF s1

/-- Iterate `loopBody` a fixed number of times. -/
def iterBody (pf : Nat) : Nat → State → Option State
  | 0, s => some s
  | k + 1, s =>
    match loopBody pf s with
    | none => none
    | some s2 => iterBody pf k s2

/-- The `solve()` loop: propagate, then return UNSAT (20) on a root-level
conflict, analyze on a deeper conflict, return SAT (10) on a full trail,
UNKNOWN (0) on an exhausted conflict budget, else decide. -/
def solveLoop (pf : Nat) : Nat → State → Option (Int × State)
  | 0, _ => none
  | fuel + 1, s =>
    match propagateF pf s with
    | none => none
    | some (some ci, s1) =>
      if s1.level = 0 then some (20, s1)
      else
        match analyzeF s1 ci with
        | none => none
        | some s2 => solveLoop pf fuel s2
    | some (none, s1) =>
      if s1.trail.length = s1.numVars then some (10, s1)
      else if s1.limit ≤ s1.conflicts then some (0, s1)
      else
        match decideF s1 with
        | none => none
        | some s2 => solveLoop pf fuel s2

/-- `solve()` including the initial empty-clause test. -/
def solveF (pf fuel : Nat) (s : State) : Option (Int × State) :=
  if s.emptyClause then some (20, s) else solveLoop pf fuel s

/-- Like `solveLoop`, but stop and return the conflicting handle and the
solver state at the first conflict raised above level 0 (the exact state
passed to `analyze`). -/
def solveToConflict (pf : Nat) : Nat → State → Option (Nat × State)
  | 0, _ => none
  | fuel + 1, s =>
    match propagateF pf s with
    | none => none
    | some (some ci, s1) => if s1.level = 0 then none else some (ci, s1)
    | some (none, s1) =>
      if s1.trail.length = s1.numVars then none
      else if s1.limit ≤ s1.conflicts then none
      else
        match decideF s1 with
        | none => none
        | some s2 => solveToConflict pf fuel s2

/-- Add a list of clauses in order, as the DIMACS parser does. -/
def addAll : List (List Int) → State → Option State
  | [], s => some s
  | c :: rest, s =>
    match addClause c s with
    | none => none
    | some (_, s2) => addAll rest s2

/-- The state after parsing: all clauses added to the freshly initialized
solver (total because parsing never trips an assertion on wellformed
input; on the concrete inputs below it evaluates to the `some` branch). -/
def stateAfter (cnf : List (List Int)) (n : Nat) : State :=
  (addAll cnf (initState n)).getD (initState n)

/-- Run the whole solver on a clause list. -/
def runSolver (n : Nat) (cnf : List (List Int)) (pf fuel : Nat) :
    Option (Int × State) :=
  match addAll cnf (initState n) with
  | none => none
  | some s => solveF pf fuel s

/-- The exit code of a run. -/
def runResult (n : Nat) (cnf : List (List Int)) (pf fuel : Nat) : Option Int :=
  (runSolver n cnf pf fuel).map Prod.fst

/-- The final state of a run. -/
def runState (n : Nat) (cnf : List (List Int)) (pf fuel : Nat) : Option State :=
  (runSolver n cnf pf fuel).map Prod.snd

/-- `satisfied(Clause *)`: some literal of the clause is true. -/
def clauseSatisfied (s : State) (c : Clause) : Bool :=
  c.lits.any (fun l => s.values l > 0)

/-! ## Concrete inputs and observation points used to settle the claims -/

/-- 3-variable input on which the solver answers SATISFIABLE although the
fifth clause `[1, 3]` is falsified by the reported assignment (two clauses
are skipped by the erase-during-iteration of `watched[3]`). -/
def cnfA : List (List Int) := [[-2, 3, -1], [1, 3, 2], [-3], [3, 2, 1], [1, 3], [2, 3]]

/-- 5-variable input driving a clause into the state: blocker true, other
watch unassigned, falsified watch retained. -/
def cnfB : List (List Int) := [[4], [-3], [3, 5, 2, 4], [-1, -2]]

/-- 4-variable input whose first learned clause has two lower-level
literals, which the code installs as both watched positions. -/
def cnfC : List (List Int) := [[-1, -2, -3, 4], [-1, -2, -3, -4]]

/-- 4-variable input whose first conflict produces the candidate
`[-3, -1]` where `-3` is removable by the specified minimization (its
antecedent contains a level-0 literal) but is kept by the code. -/
def cnfD : List (List Int) := [[3, -1, -4], [-2], [-1, -4, -3], [3, 2, -1]]

/-- 2-variable unsatisfiable input whose single conflict analysis runs at
level 1 with backjump level 0. -/
def cnfE : List (List Int) := [[1, 2], [-1, 2], [1, -2], [-1, -2]]

/-- The solver state reached on `cnfB` right before `propagate` consumes
the trail literal `-2`: clause 2 watches the now-false literal 2, its
other watch 5 is unassigned, its blocker 4 is true. -/
def stateB : State :=
  ((iterBody 20 1 (stateAfter cnfB 5)).bind (propagateLits 1)).getD (initState 5)

/-- The quiescent state on `cnfC` right after the propagation following
the first conflict analysis returns no conflict. -/
def stateC : State :=
  (((iterBody 20 4 (stateAfter cnfC 4)).bind (propagateF 20)).map Prod.snd).getD
    (initState 4)

/-- The state on `cnfE` at the moment the driver hands the first conflict
to `analyze` (conflict level 1). -/
def stateE : State :=
  ((solveToConflict 20 20 (stateAfter cnfE 2)).map Prod.snd).getD (initState 2)

/-- The analysis intermediate on `cnfD` at its first conflict: state with
stamps placed and the pre-minimization candidate learned clause. -/
def midD : AnalyzeMid :=
  ((solveToConflict 20 20 (stateAfter cnfD 4)).bind
    (fun r => analyzeCandidate r.2 r.1)).getD
    { st := initState 4, learned := [], backjump := 0, uip := 0 }

/-- The solver state on `cnfD` at the moment the driver hands the first
conflict (clause 2) to `analyze`. -/
def stateD : State :=
  ((solveToConflict 20 20 (stateAfter cnfD 4)).map Prod.snd).getD (initState 4)

/-- The watched literal of a clause other than the falsified one (the
`check` variable of `propagate`). -/
def otherWatch (c : Clause) (negLit : Int) : Int :=
  if c.watch1 = negLit then c.watch2 else c.watch1

/-- A small concrete state used to witness the amended propagation cases:
variable 2 false, variable 4 true, clause 0 watching 2 and 5 with true
blocker 4. -/
def stateBW : State := { initState 5 with
  clauses := [{ lits := [3, 5, 2, 4], watch1 := 2, watch2 := 5, blocker := 4 }]
  watched := fun x => if x = 2 then [0] else if x = 5 then [0] else []
  values := fun l =>
    if l = 2 then -1 else if l = -2 then 1
    else if l = 4 then 1 else if l = -4 then -1 else 0 }

/-! ## Invariants satisfied at the solver's quiescent points -/

/-- Number of decisions made up to and including trail index `i`: the
control stack stores, for each decision level, the trail index at which
that level began. -/
def countDecisionsLE (control : List Nat) (i : Nat) : Nat :=
  (control.filter (fun k => k ≤ i)).length

/-- Every trail literal is true, and the decision level recorded for its
variable equals the number of decisions up to and including its trail
position. -/
def TrailConsistent (s : State) : Prop :=
  ∀ i : Nat, ∀ x : Int, s.trail.get? i = some x →
    s.values x = 1 ∧ s.levels x.natAbs = countDecisionsLE s.control i

/-- The two cells of a variable always carry opposite values. -/
def SignConsistent (s : State) : Prop :=
  ∀ l : Int, l ≠ 0 → s.values (-l) = -s.values l

/-- Values range over `{-1, 0, 1}`. -/
def ValuesSmall (s : State) : Prop :=
  ∀ l : Int, s.values l = -1 ∨ s.values l = 0 ∨ s.values l = 1

/-- Every variable below the `searched` cursor is assigned. -/
def SearchedConsistent (s : State) : Prop :=
  1 ≤ s.searched ∧ ∀ v : Int, 1 ≤ v → v < s.searched → s.values v ≠ 0

/-- No variable occurs twice on the trail. -/
def TrailDistinct (s : State) : Prop :=
  s.trail.Pairwise (fun a b => a.natAbs ≠ b.natAbs)

/-- The solver invariant, except for the bound tying control-stack entries
to the trail length (which is transiently relaxed inside `decide` and
`backtrack`). -/
structure PreInv (s : State) : Prop where
  zeroVal : s.values 0 = 0
  small : ValuesSmall s
  sign : SignConsistent s
  trailC : TrailConsistent s
  distinct : TrailDistinct s
  controlLen : s.control.length = s.level
  controlMono : s.control.Pairwise (fun a b => a < b)
  searchedC : SearchedConsistent s

/-- The full solver invariant at quiescent points. -/
structure Inv (s : State) extends PreInv s : Prop where
  controlBound : ∀ k ∈ s.control, k < s.trail.length

/-- The states reached by the solver: the initial state, closed under
clause addition, propagation (also stopped at a trail-literal boundary),
conflict analysis and decisions, whenever the operation completes without
tripping a modeled assertion. -/
inductive Reachable : State → Prop
  | init (n : Nat) : Reachable (initState n)
  | ofAdd {s : State} {lits : List Int} {ci : Nat} {s2 : State} :
      Reachable s → addClause lits s = some (ci, s2) → Reachable s2
  | ofPropagate {s : State} {pf : Nat} {r : Option Nat} {s2 : State} :
      Reachable s → propagateF pf s = some (r, s2) → Reachable s2
  | ofPropagateLits {s : State} {k : Nat} {s2 : State} :
      Reachable s → propagateLits k s = some s2 → Reachable s2
  | ofAnalyze {s : State} {ci : Nat} {s2 : State} :
      Reachable s → analyzeF s ci = some s2 → Reachable s2
  | ofDecide {s : State} {s2 : State} :
      Reachable s → decideF s = some s2 → Reachable s2

/-- The fields of the state that the solver invariant speaks about; two
states sharing them satisfy the same invariants. -/
def sameCore (s2 s : State) : Prop :=
  s2.values = s.values ∧ s2.levels = s.levels ∧ s2.trail = s.trail ∧
  s2.control = s.control ∧ s2.level = s.level ∧ s2.searched = s.searched

/-! ## Boolean renderings of the claimed behaviours -/

/-- Watch lists agree on the given literals. -/
def watchedSameOn (s s2 : State) (ls : List Int) : Bool :=
  ls.all (fun x => s2.watched x == s.watched x)

/-- Claim C2 as stated, for one clause `ci` enumerated from
`watches[-lit]` (here `negLit = -lit`) in state `s`:
if the watched literal other than `-lit` is true, nothing changes;
otherwise if the clause has a non-watched literal whose value is not
false, the watch moves away from `-lit` (in particular the clause leaves
`watches[-lit]`); otherwise a false other watch is a conflict and an
unassigned other watch is assigned, `-lit` keeping its watch. -/
def c2ClaimB (s : State) (negLit : Int) (ci : Nat) : Bool :=
  match s.clauses.get? ci, processClause negLit ci [] s with
  | some c, some (confl, _, s2) =>
    let other := if c.watch1 = negLit then c.watch2 else c.watch1
    if s.values other = 1 then
      confl == none && watchedSameOn s s2 (negLit :: c.lits) &&
        (s2.clauses.get? ci == some c)
    else if c.lits.any (fun x => !(s.values x == -1) && !(x == c.watch1) && !(x == c.watch2)) then
      confl == none && !((s2.watched negLit).contains ci)
    else if s.values other = -1 then
      confl == some ci
    else
      confl == none && s2.trail == s.trail ++ [other] &&
        (s2.watched negLit).contains ci
  | _, _ => true

/-- The removal condition of claim C5 for a candidate literal: a non-none
antecedent, every literal of which over another variable is present in the
candidate up to sign or assigned at level 0. -/
def c5ClaimRemovable (s : State) (cand : List Int) (lit : Int) : Bool :=
  match s.reasons lit.natAbs with
  | none => false
  | some r =>
    match s.clauses.get? r with
    | none => false
    | some c =>
      c.lits.all (fun other =>
        other.natAbs == lit.natAbs ||
        cand.any (fun m => m.natAbs == other.natAbs) ||
        s.levels other.natAbs == 0)

/-- Claim C5 as stated, for a candidate learned clause `cand` in state
`s`: minimization removes a literal exactly when `c5ClaimRemovable`. -/
def c5ClaimB (s : State) (cand : List Int) : Bool :=
  cand.all (fun lit =>
    (!((minimizeLearned cand s).contains lit)) == c5ClaimRemovable s cand lit)

/-- The state after the first propagation on the one-clause input `[[1]]`
(used to witness the driver dispatch). -/
def stateW : State :=
  ((propagateF 5 (stateAfter [[1]] 1)).map Prod.snd).getD (initState 1)

/-! ## Small structural lemmas about the state operations -/

theorem list_set_concat_length {α : Type} (l : List α) (x y : α) :
    (l ++ [x]).set l.length y = l ++ [y] := by
  induction l with
  | nil => rfl
  | cons a t ih => simp [List.set, ih]

theorem modifyClause_emptyClause (ci : Nat) (f : Clause → Clause) (s : State) :
    (modifyClause ci f s).emptyClause = s.emptyClause := by
  unfold modifyClause; cases s.clauses.get? ci <;> rfl

theorem modifyClause_values (ci : Nat) (f : Clause → Clause) (s : State) :
    (modifyClause ci f s).values = s.values := by
  unfold modifyClause; cases s.clauses.get? ci <;> rfl

theorem modifyClause_trail (ci : Nat) (f : Clause → Clause) (s : State) :
    (modifyClause ci f s).trail = s.trail := by
  unfold modifyClause; cases s.clauses.get? ci <;> rfl

theorem modifyClause_watched (ci : Nat) (f : Clause → Clause) (s : State) :
    (modifyClause ci f s).watched = s.watched := by
  unfold modifyClause; cases s.clauses.get? ci <;> rfl

theorem modifyClause_levels (ci : Nat) (f : Clause → Clause) (s : State) :
    (modifyClause ci f s).levels = s.levels := by
  unfold modifyClause; cases s.clauses.get? ci <;> rfl

theorem modifyClause_reasons (ci : Nat) (f : Clause → Clause) (s : State) :
    (modifyClause ci f s).reasons = s.reasons := by
  unfold modifyClause; cases s.clauses.get? ci <;> rfl

theorem modifyClause_concat (ci : Nat) (pre : List Clause) (c0 : Clause)
    (f : Clause → Clause) (s : State)
    (h : s.clauses = pre ++ [c0]) (hci : ci = pre.length) :
    (modifyClause ci f s).clauses = pre ++ [f c0] := by
  subst hci
  unfold modifyClause
  rw [h]
  simp [List.get?_concat_length, list_set_concat_length]

theorem pushWatch_values (l : Int) (ci : Nat) (s : State) :
    (pushWatch l ci s).values = s.values := by
  unfold pushWatch; split <;> rfl

theorem pushWatch_trail (l : Int) (ci : Nat) (s : State) :
    (pushWatch l ci s).trail = s.trail := by
  unfold pushWatch; split <;> rfl

theorem pushWatch_emptyClause (l : Int) (ci : Nat) (s : State) :
    (pushWatch l ci s).emptyClause = s.emptyClause := by
  unfold pushWatch; split <;> rfl

theorem pushWatch_clauses (l : Int) (ci : Nat) (s : State) :
    (pushWatch l ci s).clauses = s.clauses := by
  unfold pushWatch; split <;> rfl

theorem pushWatch_watched_self (l : Int) (ci : Nat) (s : State) (h : l ≠ 0) :
    (pushWatch l ci s).watched l = s.watched l ++ [ci] := by
  unfold pushWatch; rw [if_neg h]; simp

theorem pushWatch_watched_other (l : Int) (ci : Nat) (s : State) (x : Int)
    (h : x ≠ l) : (pushWatch l ci s).watched x = s.watched x := by
  unfold pushWatch; split
  · rfl
  · simp [h]

theorem assignLit_eq (lit : Int) (r : Option Nat) (s : State)
    (h0 : lit ≠ 0) (h1 : s.values lit = 0) (h2 : s.values (-lit) = 0) :
    assignLit lit r s = some { s with
      values := fun x => if x = lit then 1 else if x = -lit then -1 else s.values x
      levels := fun v => if v = lit.natAbs then s.level else s.levels v
      reasons := fun v => if v = lit.natAbs then r else s.reasons v
      trail := s.trail ++ [lit]
      fixedCount := if s.level = 0 then s.fixedCount + 1 else s.fixedCount } := by
  unfold assignLit
  rw [if_neg h0, if_neg (by simp [h1]), if_neg (by simp [h2])]

theorem minimizeCheck_iff (s : State) (idx : Nat) (c : Clause) (cur : List Int) :
    minimizeCheck s idx c cur = true ↔
      ∀ other ∈ c.lits, other.natAbs = idx ∨ other ∈ cur := by
  simp [minimizeCheck, List.all_eq_true, List.elem_iff]

theorem minimizeLoop_keeps (s : State) :
    ∀ rem i cur stale, ∀ L0 : List Int, (∀ x ∈ cur, x ∈ L0) →
    ∀ lit, lit ∈ cur → lit ∉ minimizeLoop s rem i cur stale →
    ∃ r c, s.reasons lit.natAbs = some r ∧ s.clauses.get? r = some c ∧
      ∀ other ∈ c.lits, other.natAbs = lit.natAbs ∨ other ∈ L0 := by
  intro rem
  induction rem with
  | zero =>
    intro i cur stale L0 _ lit hmem hnot
    exact absurd hmem hnot
  | succ rem ih =>
    intro i cur stale L0 hsub lit hmem hnot
    rw [minimizeLoop] at hnot
    rcases hget : (cur ++ stale).get? i with _ | x
    · simp only [hget] at hnot; exact absurd hmem hnot
    · simp only [hget] at hnot
      rcases hr : s.reasons x.natAbs with _ | r
      · simp only [hr] at hnot
        exact ih (i + 1) cur stale L0 hsub lit hmem hnot
      · simp only [hr] at hnot
        rcases hc : s.clauses.get? r with _ | c
        · simp only [hc] at hnot
          exact ih (i + 1) cur stale L0 hsub lit hmem hnot
        · simp only [hc] at hnot
          by_cases hchk : minimizeCheck s x.natAbs c cur = true
          · rw [if_pos hchk] at hnot
            by_cases hx : lit = x
            · subst hx
              refine ⟨r, c, hr, hc, ?_⟩
              intro other hother
              rcases (minimizeCheck_iff s lit.natAbs c cur).1 hchk other hother with h | h
              · exact Or.inl h
              · exact Or.inr (hsub other h)
            · refine ih (i + 1) _ _ L0 (fun y hy => hsub y (List.mem_of_mem_filter hy)) lit ?_ hnot
              exact List.mem_filter.2 ⟨hmem, by simp [hx]⟩
          · rw [if_neg hchk] at hnot
            exact ih (i + 1) cur stale L0 hsub lit hmem hnot

theorem minimizeLoop_none_kept (s : State) :
    ∀ rem i cur stale lit, lit ∈ cur → s.reasons lit.natAbs = none →
      lit ∈ minimizeLoop s rem i cur stale := by
  intro rem
  induction rem with
  | zero => intro i cur stale lit hmem _; simpa [minimizeLoop] using hmem
  | succ rem ih =>
    intro i cur stale lit hmem hnone
    rw [minimizeLoop]
    rcases hget : (cur ++ stale).get? i with _ | x
    · simp only [hget]; exact hmem
    · simp only [hget]
      rcases hr : s.reasons x.natAbs with _ | r
      · simp only [hr]
        exact ih (i + 1) cur stale lit hmem hnone
      · simp only [hr]
        rcases hc : s.clauses.get? r with _ | c
        · simp only [hc]
          exact ih (i + 1) cur stale lit hmem hnone
        · simp only [hc]
          by_cases hchk : minimizeCheck s x.natAbs c cur = true
          · rw [if_pos hchk]
            have hx : lit ≠ x := by
              intro he
              rw [he, hr] at hnone
              exact Option.noConfusion hnone
            exact ih (i + 1) _ _ lit (List.mem_filter.2 ⟨hmem, by simp [hx]⟩) hnone
          · rw [if_neg hchk]
            exact ih (i + 1) cur stale lit hmem hnone

theorem modifyClause_get_self (ci : Nat) (f : Clause → Clause) (s : State)
    (c : Clause) (h : s.clauses.get? ci = some c) :
    (modifyClause ci f s).clauses.get? ci = some (f c) := by
  unfold modifyClause
  rw [h]
  have hlt : ci < s.clauses.length := List.get?_eq_some.1 h |>.choose
  simp [List.get?_eq_getElem?, List.getElem?_set_self, hlt]

theorem scanLits_no_change (negLit check : Int) (ci : Nat) (c : Clause) :
    ∀ lits (stale : List Nat) (s : State), s.clauses.get? ci = some c →
    (∀ x ∈ lits, s.values x ≠ 1) →
    (∀ x ∈ lits, ¬(s.values x > -1 ∧ c.watch1 ≠ x ∧ c.watch2 ≠ x)) →
    scanLits negLit check ci lits false stale s = (false, stale, s) := by
  intro lits
  induction lits with
  | nil => intro stale s _ _ _; rfl
  | cons x rest ih =>
    intro stale s hc h1 h2
    rw [scanLits]
    simp only [if_neg (h1 x (List.mem_cons_self x rest)), hc]
    rw [if_neg]
    · exact ih stale s hc (fun y hy => h1 y (List.mem_cons_of_mem x hy))
        (fun y hy => h2 y (List.mem_cons_of_mem x hy))
    · intro hcond
      exact h2 x (List.mem_cons_self x rest) hcond.2

theorem scanLits_found (negLit check : Int) (ci : Nat) :
    ∀ lits (stale : List Nat) (s : State),
    ∃ s2, scanLits negLit check ci lits true stale s = (true, stale, s2) ∧
      s2.values = s.values ∧ s2.trail = s.trail ∧ s2.watched = s.watched ∧
      s2.conflicts = s.conflicts ∧
      (∀ c1, s.clauses.get? ci = some c1 → ∃ bl, s2.clauses.get? ci =
        some { lits := c1.lits, watch1 := c1.watch1, watch2 := c1.watch2, blocker := bl }) := by
  intro lits
  induction lits with
  | nil =>
    intro stale s
    exact ⟨s, rfl, rfl, rfl, rfl, rfl, fun c1 h1 => ⟨c1.blocker, h1⟩⟩
  | cons x rest ih =>
    intro stale s
    rw [scanLits]
    by_cases hx : s.values x = 1
    · simp only [if_pos hx]
      rcases hcs : s.clauses.get? ci with _ | c0
      · have hms : modifyClause ci (fun c => { c with blocker := x }) s = s := by
          unfold modifyClause; rw [hcs]
        rw [hms]
        simp only [hcs]
        obtain ⟨s2, he, hv, ht, hw, hk, _⟩ := ih stale s
        exact ⟨s2, he, hv, ht, hw, hk, fun c1 h1 => absurd h1 (by simp)⟩
      · have hget := modifyClause_get_self ci (fun c => { c with blocker := x }) s c0 hcs
        simp only [hget]
        rw [if_neg (by simp)]
        obtain ⟨s2, he, hv, ht, hw, hk, hcl⟩ :=
          ih stale (modifyClause ci (fun c => { c with blocker := x }) s)
        refine ⟨s2, he, ?_, ?_, ?_, ?_, ?_⟩
        · rw [hv, modifyClause_values]
        · rw [ht, modifyClause_trail]
        · rw [hw, modifyClause_watched]
        · rw [hk]; unfold modifyClause; rw [hcs]
        · intro c1 h1
          cases h1
          obtain ⟨bl, hbl⟩ := hcl { c0 with blocker := x } hget
          exact ⟨bl, hbl⟩
    · simp only [if_neg hx]
      rcases hcs : s.clauses.get? ci with _ | c0
      · simp only [hcs]
        obtain ⟨s2, he, hv, ht, hw, hk, _⟩ := ih stale s
        exact ⟨s2, he, hv, ht, hw, hk, fun c1 h1 => absurd h1 (by simp)⟩
      · simp only [hcs]
        rw [if_neg (by simp)]
        obtain ⟨s2, he, hv, ht, hw, hk, hcl⟩ := ih stale s
        refine ⟨s2, he, hv, ht, hw, hk, fun c1 h1 => ?_⟩
        cases h1
        exact hcl c0 hcs

theorem scanLits_append (negLit check : Int) (ci : Nat) :
    ∀ l1 l2 found (stale : List Nat) (s : State),
    scanLits negLit check ci (l1 ++ l2) found stale s =
      scanLits negLit check ci l2 (scanLits negLit check ci l1 found stale s).1
        (scanLits negLit check ci l1 found stale s).2.1
        (scanLits negLit check ci l1 found stale s).2.2 := by
  intro l1
  induction l1 with
  | nil => intro l2 found stale s; rfl
  | cons y rest ih =>
    intro l2 found stale s
    rw [List.cons_append, scanLits, scanLits]
    rcases hcs : (if s.values y = 1
        then modifyClause ci (fun c => { c with blocker := y }) s else s).clauses.get? ci
      with _ | c0
    · simp only [hcs]
      exact ih l2 found stale _
    · simp only [hcs]
      by_cases hcond : found = false ∧
          (if s.values y = 1
            then modifyClause ci (fun c => { c with blocker := y }) s else s).values y > -1 ∧
          c0.watch1 ≠ y ∧ c0.watch2 ≠ y
      · rw [if_pos hcond, if_pos hcond]
        exact ih l2 true _ _
      · rw [if_neg hcond, if_neg hcond]
        exact ih l2 found stale _

theorem modifyClause_conflicts (ci : Nat) (f : Clause → Clause) (s : State) :
    (modifyClause ci f s).conflicts = s.conflicts := by
  unfold modifyClause; cases s.clauses.get? ci <;> rfl

theorem pushWatch_conflicts (l : Int) (ci : Nat) (s : State) :
    (pushWatch l ci s).conflicts = s.conflicts := by
  unfold pushWatch; split <;> rfl

theorem eraseWatched_watched_self (negLit : Int) (ci : Nat) (stale : List Nat)
    (s : State) : (eraseWatched negLit ci stale s).2.watched negLit =
      (s.watched negLit).filter (fun h => h ≠ ci) := by
  simp [eraseWatched]

theorem eraseWatched_watched_other (negLit : Int) (ci : Nat) (stale : List Nat)
    (s : State) (y : Int) (h : y ≠ negLit) :
    (eraseWatched negLit ci stale s).2.watched y = s.watched y := by
  simp [eraseWatched, h]

/-- Under the hypotheses holding for every clause genuinely enumerated from
`watched[negLit]`, a literal that is watched or false at the time the
other watch is not true cannot be true. -/
theorem no_true_literal (s : State) (negLit : Int) (c : Clause)
    (hneg : s.values negLit = -1)
    (hw : (c.watch1 = negLit ∧ c.watch2 ≠ negLit) ∨ (c.watch2 = negLit ∧ c.watch1 ≠ negLit))
    (hcheck : s.values (otherWatch c negLit) ≠ 1) :
    ∀ x, ¬(s.values x ≠ -1 ∧ c.watch1 ≠ x ∧ c.watch2 ≠ x) → s.values x ≠ 1 := by
  intro x hno hx1
  have hxne : s.values x ≠ -1 := by rw [hx1]; decide
  have hwx : x = c.watch1 ∨ x = c.watch2 := by
    by_contra hcon
    push_neg at hcon
    exact hno ⟨hxne, Ne.symm hcon.1, Ne.symm hcon.2⟩
  rcases hw with ⟨h1, h2⟩ | ⟨h1, h2⟩
  · rcases hwx with he | he
    · rw [he, h1, hneg] at hx1
      exact absurd hx1 (by decide)
    · apply hcheck
      rw [otherWatch, if_pos h1, ← he]
      exact hx1
  · rcases hwx with he | he
    · apply hcheck
      rw [otherWatch, if_neg h2, ← he]
      exact hx1
    · rw [he, h1, hneg] at hx1
      exact absurd hx1 (by decide)

/-- The two sequential watch-field updates of the replacement step, as one
record update: the position that held the falsified literal now holds the
replacement. -/
theorem watchUpd_eq (c2 : Clause) (check negLit x : Int)
    (hcheck : check = if c2.watch1 = negLit then c2.watch2 else c2.watch1)
    (hw : (c2.watch1 = negLit ∧ c2.watch2 ≠ negLit) ∨ (c2.watch2 = negLit ∧ c2.watch1 ≠ negLit))
    (hneq : c2.watch1 ≠ x) :
    (let c3 := if check = c2.watch1 then { c2 with watch2 := x } else c2
     if check = c3.watch2 then { c3 with watch1 := x } else c3) =
    { c2 with watch1 := if c2.watch1 = negLit then x else c2.watch1
              watch2 := if c2.watch1 = negLit then c2.watch2 else x } := by
  rcases hw with ⟨h1, h2⟩ | ⟨h1, h2⟩
  · rw [if_pos h1] at hcheck
    have hne : check ≠ c2.watch1 := by rw [hcheck, h1]; exact h2
    simp only [if_neg hne]
    rw [if_pos (by rw [hcheck])]
    simp [h1]
  · rw [if_neg h2] at hcheck
    simp only [if_pos hcheck]
    rw [if_neg (by simp only [hcheck]; exact hneq)]
    simp [h2]

theorem eraseWatched_values (negLit : Int) (ci : Nat) (stale : List Nat) (s : State) :
    (eraseWatched negLit ci stale s).2.values = s.values := rfl

theorem eraseWatched_trail (negLit : Int) (ci : Nat) (stale : List Nat) (s : State) :
    (eraseWatched negLit ci stale s).2.trail = s.trail := rfl

theorem eraseWatched_clauses (negLit : Int) (ci : Nat) (stale : List Nat) (s : State) :
    (eraseWatched negLit ci stale s).2.clauses = s.clauses := rfl

theorem eraseWatched_conflicts (negLit : Int) (ci : Nat) (stale : List Nat) (s : State) :
    (eraseWatched negLit ci stale s).2.conflicts = s.conflicts := rfl

/-- The replacement step of the scan: at the head literal `x` (non-false,
not watched) the watch moves from `negLit` to `x`, and the rest of the
scan only updates the blocker. -/
theorem scanLits_replace (negLit check : Int) (ci : Nat) (c : Clause)
    (s : State) (x : Int) (post : List Int) (stale : List Nat)
    (hc : s.clauses.get? ci = some c)
    (hcheck : check = if c.watch1 = negLit then c.watch2 else c.watch1)
    (hw : (c.watch1 = negLit ∧ c.watch2 ≠ negLit) ∨ (c.watch2 = negLit ∧ c.watch1 ≠ negLit))
    (hxgt : s.values x > -1) (hxw1 : c.watch1 ≠ x) (hxw2 : c.watch2 ≠ x)
    (hx0 : x ≠ 0) (hxneg : x ≠ negLit) :
    ∃ stale2 s2,
      scanLits negLit check ci (x :: post) false stale s = (true, stale2, s2) ∧
      s2.watched negLit = (s.watched negLit).filter (fun h => h ≠ ci) ∧
      s2.watched x = s.watched x ++ [ci] ∧
      (∀ y, y ≠ negLit → y ≠ x → s2.watched y = s.watched y) ∧
      s2.values = s.values ∧ s2.trail = s.trail ∧ s2.conflicts = s.conflicts ∧
      (∃ bl, s2.clauses.get? ci = some
        { lits := c.lits
          watch1 := if c.watch1 = negLit then x else c.watch1
          watch2 := if c.watch1 = negLit then c.watch2 else x
          blocker := bl }) := by
  rw [scanLits]
  by_cases hxv : s.values x = 1
  · simp only [if_pos hxv]
    have hgetA := modifyClause_get_self ci (fun cc => { cc with blocker := x }) s c hc
    simp only [hgetA]
    rw [if_pos (by exact ⟨by trivial, by rw [modifyClause_values]; exact hxgt, hxw1, hxw2⟩)]
    obtain ⟨s2, he2, hv2, ht2, hwc2, hk2, hcl2⟩ := scanLits_found negLit check ci post
      ((eraseWatched negLit ci stale
        (modifyClause ci (fun cc => { cc with blocker := x }) s)).1)
      (modifyClause ci
        (fun c2 =>
          let c3 := if check = c2.watch1 then { c2 with watch2 := x } else c2
          if check = c3.watch2 then { c3 with watch1 := x } else c3)
        (pushWatch x ci
          (eraseWatched negLit ci stale
            (modifyClause ci (fun cc => { cc with blocker := x }) s)).2))
    refine ⟨_, s2, he2, ?_, ?_, ?_, ?_, ?_, ?_, ?_⟩
    · rw [hwc2, modifyClause_watched, pushWatch_watched_other x ci _ negLit (Ne.symm hxneg),
        eraseWatched_watched_self, modifyClause_watched]
    · rw [hwc2, modifyClause_watched, pushWatch_watched_self x ci _ hx0,
        eraseWatched_watched_other _ _ _ _ _ hxneg, modifyClause_watched]
    · intro y hyn hyx
      rw [hwc2, modifyClause_watched, pushWatch_watched_other x ci _ y hyx,
        eraseWatched_watched_other _ _ _ _ _ hyn, modifyClause_watched]
    · rw [hv2, modifyClause_values, pushWatch_values, eraseWatched_values, modifyClause_values]
    · rw [ht2, modifyClause_trail, pushWatch_trail, eraseWatched_trail, modifyClause_trail]
    · rw [hk2, modifyClause_conflicts, pushWatch_conflicts, eraseWatched_conflicts,
        modifyClause_conflicts]
    · have hgetB : (pushWatch x ci
          (eraseWatched negLit ci stale
            (modifyClause ci (fun cc => { cc with blocker := x }) s)).2).clauses.get? ci =
          some { c with blocker := x } := by
        rw [pushWatch_clauses, eraseWatched_clauses]
        exact hgetA
      have hgetC := modifyClause_get_self ci
        (fun c2 =>
          let c3 := if check = c2.watch1 then { c2 with watch2 := x } else c2
          if check = c3.watch2 then { c3 with watch1 := x } else c3)
        _ _ hgetB
      have hupd := watchUpd_eq { c with blocker := x } check negLit x hcheck hw hxw1
      obtain ⟨bl, hbl⟩ := hcl2 _ (hgetC.trans (congrArg some hupd))
      exact ⟨bl, hbl⟩
  · simp only [if_neg hxv, hc]
    rw [if_pos (by exact ⟨by trivial, hxgt, hxw1, hxw2⟩)]
    obtain ⟨s2, he2, hv2, ht2, hwc2, hk2, hcl2⟩ := scanLits_found negLit check ci post
      ((eraseWatched negLit ci stale s).1)
      (modifyClause ci
        (fun c2 =>
          let c3 := if check = c2.watch1 then { c2 with watch2 := x } else c2
          if check = c3.watch2 then { c3 with watch1 := x } else c3)
        (pushWatch x ci (eraseWatched negLit ci stale s).2))
    refine ⟨_, s2, he2, ?_, ?_, ?_, ?_, ?_, ?_, ?_⟩
    · rw [hwc2, modifyClause_watched, pushWatch_watched_other x ci _ negLit (Ne.symm hxneg),
        eraseWatched_watched_self]
    · rw [hwc2, modifyClause_watched, pushWatch_watched_self x ci _ hx0,
        eraseWatched_watched_other _ _ _ _ _ hxneg]
    · intro y hyn hyx
      rw [hwc2, modifyClause_watched, pushWatch_watched_other x ci _ y hyx,
        eraseWatched_watched_other _ _ _ _ _ hyn]
    · rw [hv2, modifyClause_values, pushWatch_values, eraseWatched_values]
    · rw [ht2, modifyClause_trail, pushWatch_trail, eraseWatched_trail]
    · rw [hk2, modifyClause_conflicts, pushWatch_conflicts, eraseWatched_conflicts]
    · have hgetB : (pushWatch x ci (eraseWatched negLit ci stale s).2).clauses.get? ci =
          some c := by
        rw [pushWatch_clauses, eraseWatched_clauses]
        exact hc
      have hgetC := modifyClause_get_self ci
        (fun c2 =>
          let c3 := if check = c2.watch1 then { c2 with watch2 := x } else c2
          if check = c3.watch2 then { c3 with watch1 := x } else c3)
        _ _ hgetB
      have hupd := watchUpd_eq c check negLit x hcheck hw hxw1
      obtain ⟨bl, hbl⟩ := hcl2 _ (hgetC.trans (congrArg some hupd))
      exact ⟨bl, hbl⟩

/-! ## Preservation of the invariant by the solver operations -/

theorem preInv_congr {s s2 : State}
    (hv : s2.values = s.values) (hl : s2.levels = s.levels)
    (ht : s2.trail = s.trail) (hc : s2.control = s.control)
    (hlev : s2.level = s.level) (hs : s2.searched = s.searched)
    (h : PreInv s) : PreInv s2 := by
  refine ⟨?_, ?_, ?_, ?_, ?_, ?_, ?_, ?_⟩
  · rw [hv]; exact h.zeroVal
  · unfold ValuesSmall; rw [hv]; exact h.small
  · unfold SignConsistent; rw [hv]; exact h.sign
  · unfold TrailConsistent; rw [hv, hl, ht, hc]; exact h.trailC
  · unfold TrailDistinct; rw [ht]; exact h.distinct
  · rw [hc, hlev]; exact h.controlLen
  · rw [hc]; exact h.controlMono
  · unfold SearchedConsistent; rw [hv, hs]; exact h.searchedC

theorem inv_congr {s s2 : State}
    (hv : s2.values = s.values) (hl : s2.levels = s.levels)
    (ht : s2.trail = s.trail) (hc : s2.control = s.control)
    (hlev : s2.level = s.level) (hs : s2.searched = s.searched)
    (h : Inv s) : Inv s2 :=
  ⟨preInv_congr hv hl ht hc hlev hs h.toPreInv,
   by rw [hc, ht]; exact h.controlBound⟩

theorem inv_init (n : Nat) : Inv (initState n) := by
  refine ⟨⟨rfl, ?_, ?_, ?_, ?_, rfl, ?_, ?_, ?_⟩, ?_⟩
  · intro l; exact Or.inr (Or.inl rfl)
  · intro l _; simp [initState]
  · intro i x hx; simp [initState] at hx
  · exact List.Pairwise.nil
  · exact List.Pairwise.nil
  · exact le_refl 1
  · intro v h1 h2
    simp only [initState] at h2
    omega
  · intro k hk; simp [initState] at hk

theorem countDecisionsLE_all (control : List Nat) (i : Nat)
    (h : ∀ k ∈ control, k ≤ i) : countDecisionsLE control i = control.length := by
  unfold countDecisionsLE
  rw [List.filter_eq_self.2 (fun k hk => decide_eq_true (h k hk))]

theorem trail_var_ne {s : State} (htc : TrailConsistent s)
    {lit : Int} (hv : s.values lit = 0) (hvn : s.values (-lit) = 0) :
    ∀ i x, s.trail.get? i = some x → x.natAbs ≠ lit.natAbs := by
  intro i x hx he
  have h1 := (htc i x hx).1
  rcases Int.natAbs_eq_natAbs_iff.1 he with rfl | rfl
  · rw [hv] at h1; exact absurd h1 (by decide)
  · rw [hvn] at h1; exact absurd h1 (by decide)

theorem assignLit_inv {lit : Int} {r : Option Nat} {s s2 : State}
    (h : PreInv s) (hb : ∀ k ∈ s.control, k ≤ s.trail.length)
    (ha : assignLit lit r s = some s2) : Inv s2 := by
  unfold assignLit at ha
  by_cases h0 : lit = 0
  · rw [if_pos h0] at ha; exact absurd ha (by simp)
  rw [if_neg h0] at ha
  by_cases hv1 : s.values lit ≠ 0
  · rw [if_pos hv1] at ha; exact absurd ha (by simp)
  rw [if_neg hv1] at ha
  push_neg at hv1
  by_cases hv2 : s.values (-lit) ≠ 0
  · rw [if_pos hv2] at ha; exact absurd ha (by simp)
  rw [if_neg hv2] at ha
  push_neg at hv2
  obtain rfl := Option.some.inj ha
  have hne : ∀ i x, s.trail.get? i = some x → x.natAbs ≠ lit.natAbs :=
    trail_var_ne h.trailC hv1 hv2
  refine ⟨⟨?_, ?_, ?_, ?_, ?_, ?_, ?_, ?_⟩, ?_⟩
  · show (if (0 : Int) = lit then (1 : Int)
      else if (0 : Int) = -lit then -1 else s.values 0) = 0
    rw [if_neg (fun he => h0 he.symm), if_neg (fun he => h0 (by omega))]
    exact h.zeroVal
  · intro x
    show (if x = lit then (1 : Int)
      else if x = -lit then -1 else s.values x) = -1 ∨ _ ∨ _
    by_cases hxl : x = lit
    · simp [hxl]
    · by_cases hxn : x = -lit
      · rw [hxn, if_neg (by omega), if_pos rfl]
        exact Or.inl rfl
      · simpa [hxl, hxn] using h.small x
  · intro l hl
    show (if -l = lit then (1 : Int) else if -l = -lit then -1 else s.values (-l)) =
      -(if l = lit then (1 : Int) else if l = -lit then -1 else s.values l)
    by_cases hll : l = lit
    · rw [if_neg (by omega), if_pos (by omega), if_pos hll]
    · by_cases hln : l = -lit
      · rw [if_pos (by omega), if_neg hll, if_pos hln]
        norm_num
      · rw [if_neg (by omega), if_neg (by omega), if_neg hll, if_neg hln]
        exact h.sign l hl
  · intro i x hx
    show _ ∧ (if x.natAbs = lit.natAbs then s.level else s.levels x.natAbs) = _
    by_cases hi : i < s.trail.length
    · rw [show (({ s with
          values := fun x => if x = lit then 1 else if x = -lit then -1 else s.values x
          levels := fun v => if v = lit.natAbs then s.level else s.levels v
          reasons := fun v => if v = lit.natAbs then r else s.reasons v
          trail := s.trail ++ [lit]
          fixedCount := if s.level = 0 then s.fixedCount + 1 else s.fixedCount } : State).trail)
            = s.trail ++ [lit] from rfl, List.get?_append hi] at hx
      have hold := h.trailC i x hx
      have hxa := hne i x hx
      constructor
      · show (if x = lit then (1 : Int) else if x = -lit then -1 else s.values x) = 1
        rw [if_neg (fun he => hxa (by rw [he])),
          if_neg (fun he => hxa (by rw [he]; exact Int.natAbs_neg lit))]
        exact hold.1
      · rw [if_neg hxa]
        exact hold.2
    · have hil : i = s.trail.length := by
        have hlt := List.get?_eq_some.1 hx |>.choose
        simp only [List.length_append, List.length_singleton] at hlt
        omega
      subst hil
      rw [show (({ s with
          values := fun x => if x = lit then 1 else if x = -lit then -1 else s.values x
          levels := fun v => if v = lit.natAbs then s.level else s.levels v
          reasons := fun v => if v = lit.natAbs then r else s.reasons v
          trail := s.trail ++ [lit]
          fixedCount := if s.level = 0 then s.fixedCount + 1 else s.fixedCount } : State).trail)
            = s.trail ++ [lit] from rfl, List.get?_concat_length] at hx
      obtain rfl := Option.some.inj hx
      constructor
      · show (if lit = lit then (1 : Int) else _) = 1
        rw [if_pos rfl]
      · rw [if_pos rfl]
        show s.level = countDecisionsLE s.control s.trail.length
        rw [countDecisionsLE_all s.control s.trail.length hb]
        exact h.controlLen.symm
  · show (s.trail ++ [lit]).Pairwise _
    refine List.pairwise_append.2 ⟨h.distinct, List.pairwise_singleton _ _, ?_⟩
    intro a hamem b hbmem
    obtain rfl : b = lit := List.mem_singleton.1 hbmem
    obtain ⟨i, hi⟩ := List.mem_iff_get?.1 hamem
    exact hne i a hi
  · exact h.controlLen
  · exact h.controlMono
  · refine ⟨h.searchedC.1, ?_⟩
    intro v h1v h2v
    show (if v = lit then (1 : Int) else if v = -lit then -1 else s.values v) ≠ 0
    by_cases hvl : v = lit
    · simp [hvl]
    · by_cases hvn : v = -lit
      · rw [hvn, if_neg (by omega), if_pos rfl]
        decide
      · rw [if_neg hvl, if_neg hvn]
        exact h.searchedC.2 v h1v h2v
  · intro k hk
    have := hb k hk
    show k < (s.trail ++ [lit]).length
    simp only [List.length_append, List.length_singleton]
    omega

theorem unassign_pop_preInv {s : State} (h : PreInv s) {t : List Int} {a : Int}
    (htr : s.trail = t ++ [a]) {s3 : State}
    (hu : unassignLit a { s with trail := t } = some s3) : PreInv s3 := by
  have hval : s.values a = 1 := by
    refine (h.trailC t.length a ?_).1
    rw [htr, List.get?_concat_length]
  have ha0 : a ≠ 0 := by
    intro he
    rw [he, h.zeroVal] at hval
    exact absurd hval (by decide)
  have htne : ∀ x ∈ t, x.natAbs ≠ a.natAbs := by
    have hp := h.distinct
    unfold TrailDistinct at hp
    rw [htr] at hp
    intro x hx
    exact (List.pairwise_append.1 hp).2.2 x hx a (List.mem_singleton_self a)
  unfold unassignLit at hu
  rw [if_neg ha0] at hu
  by_cases hg1 : s.values a ≠ 1
  · exact absurd hval hg1
  rw [if_neg (show ¬ (({ s with trail := t } : State).values a ≠ 1) from hg1)] at hu
  by_cases hg2 : s.values (-a) ≠ -1
  · exact absurd (by rw [h.sign a ha0, hval] : s.values (-a) = -1) hg2
  rw [if_neg (show ¬ (({ s with trail := t } : State).values (-a) ≠ -1) from hg2)] at hu
  obtain rfl := Option.some.inj hu
  refine ⟨?_, ?_, ?_, ?_, ?_, ?_, ?_, ?_⟩
  · show (if (0 : Int) = a then (0 : Int) else if (0 : Int) = -a then 0 else s.values 0) = 0
    rw [if_neg (fun he => ha0 he.symm), if_neg (fun he => ha0 (by omega))]
    exact h.zeroVal
  · intro x
    show (if x = a then (0 : Int) else if x = -a then 0 else s.values x) = -1 ∨ _ ∨ _
    by_cases hxa : x = a
    · simp [hxa]
    · by_cases hxn : x = -a
      · simp [hxa, hxn]
      · simpa [hxa, hxn] using h.small x
  · intro l hl
    show (if -l = a then (0 : Int) else if -l = -a then 0 else s.values (-l)) =
      -(if l = a then (0 : Int) else if l = -a then 0 else s.values l)
    by_cases hll : l = a
    · rw [if_neg (by omega), if_pos (by omega), if_pos hll]
      norm_num
    · by_cases hln : l = -a
      · rw [if_pos (by omega), if_neg hll, if_pos hln]
        norm_num
      · rw [if_neg (by omega), if_neg (by omega), if_neg hll, if_neg hln]
        exact h.sign l hl
  · intro i x hx
    have hx2 : s.trail.get? i = some x := by
      rw [htr, List.get?_append (List.get?_eq_some.1 hx).choose]
      exact hx
    have hold := h.trailC i x hx2
    have hxa : x.natAbs ≠ a.natAbs := by
      refine htne x ?_
      exact List.get?_mem hx
    constructor
    · show (if x = a then (0 : Int) else if x = -a then 0 else s.values x) = 1
      rw [if_neg (fun he => hxa (by rw [he])),
        if_neg (fun he => hxa (by rw [he]; exact Int.natAbs_neg a))]
      exact hold.1
    · exact hold.2
  · have hp := h.distinct
    unfold TrailDistinct at hp
    rw [htr] at hp
    exact (List.pairwise_append.1 hp).1
  · exact h.controlLen
  · exact h.controlMono
  · have hs1 := h.searchedC.1
    have hna : 1 ≤ (a.natAbs : Int) := by omega
    refine ⟨?_, ?_⟩
    · show 1 ≤ if (a.natAbs : Int) < s.searched then (a.natAbs : Int) else s.searched
      split <;> omega
    · intro v h1v h2v
      show (if v = a then (0 : Int) else if v = -a then 0 else s.values v) ≠ 0
      have h2w : v < if (a.natAbs : Int) < s.searched then (a.natAbs : Int) else s.searched :=
        h2v
      have h2v2 : v < s.searched ∧ v < (a.natAbs : Int) := by
        by_cases hlt : (a.natAbs : Int) < s.searched
        · rw [if_pos hlt] at h2w
          exact ⟨by omega, h2w⟩
        · rw [if_neg hlt] at h2w
          exact ⟨h2w, by omega⟩
      rw [if_neg (by omega), if_neg (by omega)]
      exact h.searchedC.2 v h1v h2v2.1

theorem unassignLit_fields {a : Int} {s s3 : State}
    (hu : unassignLit a s = some s3) :
    s3.control = s.control ∧ s3.level = s.level := by
  unfold unassignLit at hu
  by_cases h1 : a = 0
  · rw [if_pos h1] at hu; exact Option.noConfusion hu
  · rw [if_neg h1] at hu
    by_cases h2 : s.values a ≠ 1
    · rw [if_pos h2] at hu; exact Option.noConfusion hu
    · rw [if_neg h2] at hu
      by_cases h3 : s.values (-a) ≠ -1
      · rw [if_pos h3] at hu; exact Option.noConfusion hu
      · rw [if_neg h3] at hu
        obtain rfl := Option.some.inj hu
        exact ⟨rfl, rfl⟩

theorem popTrail_preInv :
    ∀ fuel before (s s2 : State), PreInv s → popTrail fuel before s = some s2 →
      PreInv s2 ∧ s2.control = s.control ∧ s2.level = s.level ∧
      s2.trail.length = before := by
  intro fuel
  induction fuel with
  | zero => intro before s s2 _ hp; exact absurd hp (by simp [popTrail])
  | succ fuel ih =>
    intro before s s2 h hp
    rw [popTrail] at hp
    by_cases hlen : s.trail.length = before
    · rw [if_pos hlen] at hp
      obtain rfl := Option.some.inj hp
      exact ⟨h, rfl, rfl, hlen⟩
    · rw [if_neg hlen] at hp
      rcases hlast : s.trail.getLast? with _ | a
      · simp only [hlast] at hp
        exact absurd hp (by simp)
      · simp only [hlast] at hp
        have htr : s.trail = s.trail.dropLast ++ [a] :=
          Eq.symm (List.dropLast_append_getLast? a hlast)
        rcases hu : unassignLit a { s with trail := s.trail.dropLast } with _ | s3
        · simp only [hu] at hp
          exact absurd hp (by simp)
        · simp only [hu] at hp
          have h3 := unassign_pop_preInv h htr hu
          obtain ⟨h4, hc4, hl4, hlen4⟩ := ih before s3 s2 h3 hp
          obtain ⟨hc3, hl3⟩ := unassignLit_fields hu
          exact ⟨h4, by rw [hc4, hc3], by rw [hl4, hl3], hlen4⟩

theorem sorted_drop_ge (c : List Nat) (n b : Nat)
    (hs : c.Pairwise (fun a b => a < b)) (hget : c.get? n = some b) :
    ∀ x ∈ c.drop n, b ≤ x := by
  intro x hx
  obtain ⟨j, hj⟩ := List.mem_iff_get?.1 hx
  have hj2 : c.get? (n + j) = some x := (List.get?_drop c n j).symm.trans hj
  rcases Nat.eq_zero_or_pos j with rfl | hjpos
  · rw [Nat.add_zero] at hj2
    obtain rfl := Option.some.inj (hget.symm.trans hj2)
    exact Nat.le_refl b
  · have hn : n < c.length := (List.get?_eq_some.1 hget).choose
    have hnj : n + j < c.length := (List.get?_eq_some.1 hj2).choose
    have hp := List.pairwise_iff_get.1 hs ⟨n, hn⟩ ⟨n + j, hnj⟩ (by simp; omega)
    have h1 : c.get ⟨n, hn⟩ = b :=
      Option.some.inj ((List.get?_eq_get hn).symm.trans hget)
    have h2 : c.get ⟨n + j, hnj⟩ = x :=
      Option.some.inj ((List.get?_eq_get hnj).symm.trans hj2)
    rw [h1, h2] at hp
    omega

theorem sorted_take_lt (c : List Nat) (n b : Nat)
    (hs : c.Pairwise (fun a b => a < b)) (hget : c.get? n = some b) :
    ∀ x ∈ c.take n, x < b := by
  intro x hx
  obtain ⟨j, hj⟩ := List.mem_iff_get?.1 hx
  have hjlt : j < n := by
    have := (List.get?_eq_some.1 hj).choose
    simp [List.length_take] at this
    omega
  have hj2 : c.get? j = some x := by
    rw [← List.get?_take hjlt]; exact hj
  have hn : n < c.length := (List.get?_eq_some.1 hget).choose
  have hjc : j < c.length := (List.get?_eq_some.1 hj2).choose
  have hp := List.pairwise_iff_get.1 hs ⟨j, hjc⟩ ⟨n, hn⟩ (by simp; omega)
  have h1 : c.get ⟨n, hn⟩ = b :=
    Option.some.inj ((List.get?_eq_get hn).symm.trans hget)
  have h2 : c.get ⟨j, hjc⟩ = x :=
    Option.some.inj ((List.get?_eq_get hjc).symm.trans hj2)
  rw [h1, h2] at hp
  exact hp

theorem take_filter_le (c : List Nat) (n b i : Nat)
    (hs : c.Pairwise (fun a b => a < b)) (hget : c.get? n = some b)
    (hi : i < b) :
    (c.take n).filter (fun k => k ≤ i) = c.filter (fun k => k ≤ i) := by
  conv_rhs => rw [← List.take_append_drop n c]
  rw [List.filter_append]
  have hnil : (c.drop n).filter (fun k => k ≤ i) = [] := by
    rw [List.filter_eq_nil]
    intro x hx
    have := sorted_drop_ge c n b hs hget x hx
    simp
    omega
  rw [hnil, List.append_nil]

theorem backtrackF_inv {newLevel : Nat} {s s2 : State} (h : Inv s)
    (hb : backtrackF newLevel s = some s2) :
    Inv s2 ∧ s2.level = newLevel := by
  unfold backtrackF at hb
  by_cases hlev : s.level ≤ newLevel
  · rw [if_pos hlev] at hb; exact Option.noConfusion hb
  · rw [if_neg hlev] at hb
    rcases hget : s.control.get? newLevel with _ | before
    · simp only [hget] at hb; exact Option.noConfusion hb
    · simp only [hget] at hb
      rcases hpop : popTrail (s.trail.length + 1) before s with _ | s3
      · simp only [hpop] at hb; exact Option.noConfusion hb
      · simp only [hpop] at hb
        obtain rfl := Option.some.inj hb
        obtain ⟨h3, hc3, hl3, hlen3⟩ :=
          popTrail_preInv (s.trail.length + 1) before s s3 h.toPreInv hpop
        have hn : newLevel < s.control.length := (List.get?_eq_some.1 hget).choose
        refine ⟨⟨⟨h3.zeroVal, h3.small, h3.sign, ?_, h3.distinct, ?_, ?_, h3.searchedC⟩, ?_⟩, rfl⟩
        · intro i x hx
          have hi : i < before := by
            have hlt : i < s3.trail.length := (List.get?_eq_some.1 hx).choose
            omega
          obtain ⟨hv, hl⟩ := h3.trailC i x hx
          refine ⟨hv, ?_⟩
          rw [hl, hc3]
          unfold countDecisionsLE
          rw [take_filter_le s.control newLevel before i h.controlMono hget hi]
        · show (s3.control.take newLevel).length = newLevel
          rw [hc3]
          simp [List.length_take]
          omega
        · show (s3.control.take newLevel).Pairwise (fun a b => a < b)
          rw [hc3]
          exact h.controlMono.sublist (List.take_sublist _ _)
        · intro k hk
          show k < s3.trail.length
          rw [hlen3]
          rw [hc3] at hk
          exact sorted_take_lt s.control newLevel before h.controlMono hget k hk

theorem countDecisionsLE_concat_gt (c : List Nat) (b i : Nat) (hi : i < b) :
    countDecisionsLE (c ++ [b]) i = countDecisionsLE c i := by
  unfold countDecisionsLE
  rw [List.filter_append]
  have : [b].filter (fun k => k ≤ i) = [] := by
    simp
    omega
  rw [this, List.append_nil]

theorem findUnassigned_spec :
    ∀ fuel (s : State) (start v : Int), findUnassigned s fuel start = some v →
      start ≤ v ∧ v ≤ (s.numVars : Int) ∧ s.values v = 0 ∧
        ∀ w, start ≤ w → w < v → s.values w ≠ 0 := by
  intro fuel
  induction fuel with
  | zero => intro s start v hf; exact absurd hf (by simp [findUnassigned])
  | succ fuel ih =>
    intro s start v hf
    rw [findUnassigned] at hf
    by_cases h1 : start > (s.numVars : Int)
    · rw [if_pos h1] at hf; exact Option.noConfusion hf
    · rw [if_neg h1] at hf
      by_cases h2 : s.values start = 0
      · rw [if_pos h2] at hf
        obtain rfl := Option.some.inj hf
        exact ⟨le_refl _, by omega, h2,
          fun w hw1 hw2 => absurd hw2 (not_lt.2 hw1)⟩
      · rw [if_neg h2] at hf
        obtain ⟨ih1, ih2, ih3, ih4⟩ := ih s (start + 1) v hf
        refine ⟨by omega, ih2, ih3, ?_⟩
        intro w hw1 hw2
        by_cases hws : w = start
        · rw [hws]; exact h2
        · exact ih4 w (by omega) hw2

theorem decideF_inv {s s2 : State} (h : Inv s) (hd : decideF s = some s2) :
    Inv s2 := by
  simp only [decideF] at hd
  rcases hf : findUnassigned { s with decisions := s.decisions + 1 }
      (s.numVars + 2) s.searched with _ | v
  · rw [hf] at hd
    exact Option.noConfusion hd
  · rw [hf] at hd
    obtain ⟨hs1, hs2, hs3, hs4⟩ := findUnassigned_spec _ _ _ _ hf
    have hs3v : s.values v = 0 := hs3
    have hs4v : ∀ w, s.searched ≤ w → w < v → s.values w ≠ 0 := hs4
    have hpre : PreInv { s with
        decisions := s.decisions + 1
        searched := v
        level := s.level + 1
        control := s.control ++ [s.trail.length]
        stamped := fun i => if i = v.natAbs then 0 else s.stamped i } := by
      refine ⟨h.zeroVal, h.small, h.sign, ?_, h.distinct, ?_, ?_, ?_⟩
      · intro i x hx
        have hxs : s.trail.get? i = some x := hx
        obtain ⟨hv1, hl1⟩ := h.trailC i x hxs
        refine ⟨hv1, ?_⟩
        have hi : i < s.trail.length := (List.get?_eq_some.1 hxs).choose
        show s.levels x.natAbs = countDecisionsLE (s.control ++ [s.trail.length]) i
        rw [countDecisionsLE_concat_gt s.control s.trail.length i hi]
        exact hl1
      · show (s.control ++ [s.trail.length]).length = s.level + 1
        rw [List.length_append, h.controlLen]
        rfl
      · show (s.control ++ [s.trail.length]).Pairwise (fun a b => a < b)
        refine List.pairwise_append.2 ⟨h.controlMono, by simp, ?_⟩
        intro a ha b hb
        rw [List.mem_singleton.1 hb]
        exact h.controlBound a ha
      · constructor
        · show (1 : Int) ≤ v
          have := h.searchedC.1
          omega
        · intro w hw1 hw2
          by_cases hws : w < s.searched
          · exact h.searchedC.2 w hw1 hws
          · exact hs4v w (by omega) hw2
    have hbd : ∀ k ∈ s.control ++ [s.trail.length], k ≤ s.trail.length := by
      intro k hk
      rcases List.mem_append.1 hk with hk1 | hk2
      · exact le_of_lt (h.controlBound k hk1)
      · rw [List.mem_singleton.1 hk2]
    exact assignLit_inv hpre hbd hd

theorem sameCore_refl (s : State) : sameCore s s := ⟨rfl, rfl, rfl, rfl, rfl, rfl⟩

theorem sameCore_trans {s3 s2 s1 : State} (h2 : sameCore s3 s2)
    (h1 : sameCore s2 s1) : sameCore s3 s1 :=
  ⟨h2.1.trans h1.1, h2.2.1.trans h1.2.1, h2.2.2.1.trans h1.2.2.1,
   h2.2.2.2.1.trans h1.2.2.2.1, h2.2.2.2.2.1.trans h1.2.2.2.2.1,
   h2.2.2.2.2.2.trans h1.2.2.2.2.2⟩

theorem preInv_sameCore {s2 s : State} (hc : sameCore s2 s) (h : PreInv s) :
    PreInv s2 :=
  preInv_congr hc.1 hc.2.1 hc.2.2.1 hc.2.2.2.1 hc.2.2.2.2.1 hc.2.2.2.2.2 h

theorem inv_sameCore {s2 s : State} (hc : sameCore s2 s) (h : Inv s) : Inv s2 :=
  inv_congr hc.1 hc.2.1 hc.2.2.1 hc.2.2.2.1 hc.2.2.2.2.1 hc.2.2.2.2.2 h

theorem pushWatch_sameCore (l : Int) (ci : Nat) (s : State) :
    sameCore (pushWatch l ci s) s := by
  unfold pushWatch
  split_ifs <;> exact ⟨rfl, rfl, rfl, rfl, rfl, rfl⟩

theorem modifyClause_sameCore (ci : Nat) (f : Clause → Clause) (s : State) :
    sameCore (modifyClause ci f s) s := by
  unfold modifyClause
  cases s.clauses.get? ci <;> exact ⟨rfl, rfl, rfl, rfl, rfl, rfl⟩

theorem eraseWatched_sameCore (negLit : Int) (ci : Nat) (stale : List Nat)
    (s : State) : sameCore (eraseWatched negLit ci stale s).2 s :=
  ⟨rfl, rfl, rfl, rfl, rfl, rfl⟩

theorem addClause_inv {lits : List Int} {s : State} {ci : Nat} {s2 : State}
    (h : Inv s) (ha : addClause lits s = some (ci, s2)) : Inv s2 := by
  have hbd : ∀ k ∈ s.control, k ≤ s.trail.length :=
    fun k hk => le_of_lt (h.controlBound k hk)
  rcases lits with _ | ⟨a, _ | ⟨b, rest⟩⟩
  · simp only [addClause] at ha
    obtain ⟨he1, he2⟩ := Prod.mk.inj (Option.some.inj ha)
    rw [← he2]
    refine inv_sameCore (sameCore_trans (modifyClause_sameCore _ _ _) ?_) h
    exact ⟨rfl, rfl, rfl, rfl, rfl, rfl⟩
  · simp only [addClause] at ha
    by_cases hv : s.values a = 0
    · rw [if_pos hv] at ha
      rcases hassign : assignLit a none { s with clauses := s.clauses ++
          [{ lits := [a], watch1 := 0, watch2 := 0, blocker := 0 }] } with _ | sA
      · rw [hassign] at ha
        exact Option.noConfusion ha
      · rw [hassign] at ha
        obtain ⟨he1, he2⟩ := Prod.mk.inj (Option.some.inj ha)
        rw [← he2]
        have hpre1 : PreInv { s with clauses := s.clauses ++
            [{ lits := [a], watch1 := 0, watch2 := 0, blocker := 0 }] } :=
          preInv_sameCore (show sameCore _ s from ⟨rfl, rfl, rfl, rfl, rfl, rfl⟩)
            h.toPreInv
        have hinvA : Inv sA := assignLit_inv hpre1 hbd hassign
        exact inv_sameCore (modifyClause_sameCore _ _ _) hinvA
    · rw [if_neg hv] at ha
      by_cases hneg : s.values a < 0
      · rw [if_pos hneg] at ha
        obtain ⟨he1, he2⟩ := Prod.mk.inj (Option.some.inj ha)
        rw [← he2]
        refine inv_sameCore (sameCore_trans (modifyClause_sameCore _ _ _) ?_) h
        exact ⟨rfl, rfl, rfl, rfl, rfl, rfl⟩
      · rw [if_neg hneg] at ha
        obtain ⟨he1, he2⟩ := Prod.mk.inj (Option.some.inj ha)
        rw [← he2]
        refine inv_sameCore (sameCore_trans (modifyClause_sameCore _ _ _) ?_) h
        exact ⟨rfl, rfl, rfl, rfl, rfl, rfl⟩
  · simp only [addClause] at ha
    obtain ⟨he1, he2⟩ := Prod.mk.inj (Option.some.inj ha)
    rw [← he2]
    refine inv_sameCore (sameCore_trans (modifyClause_sameCore _ _ _) ?_) h
    refine sameCore_trans (pushWatch_sameCore _ _ _) ?_
    refine sameCore_trans (pushWatch_sameCore _ _ _) ?_
    refine sameCore_trans (modifyClause_sameCore _ _ _) ?_
    exact ⟨rfl, rfl, rfl, rfl, rfl, rfl⟩

theorem scanLits_sameCore (negLit check : Int) (ci : Nat) :
    ∀ lits found stale (s : State),
      sameCore (scanLits negLit check ci lits found stale s).2.2 s := by
  intro lits
  induction lits with
  | nil => intro found stale s; exact sameCore_refl _
  | cons other rest ih =>
    intro found stale s
    have hA : sameCore (if s.values other = 1
        then modifyClause ci (fun c => { c with blocker := other }) s else s) s := by
      split_ifs
      · exact modifyClause_sameCore _ _ _
      · exact sameCore_refl _
    simp only [scanLits]
    rcases hc : (if s.values other = 1
        then modifyClause ci (fun c => { c with blocker := other }) s
        else s).clauses.get? ci with _ | c
    · simp only [hc]
      exact sameCore_trans (ih found stale _) hA
    · simp only [hc]
      by_cases hcond : found = false ∧ (if s.values other = 1
          then modifyClause ci (fun c => { c with blocker := other }) s
          else s).values other > -1 ∧ c.watch1 ≠ other ∧ c.watch2 ≠ other
      · rw [if_pos hcond]
        refine sameCore_trans (ih true _ _) ?_
        refine sameCore_trans (modifyClause_sameCore _ _ _) ?_
        refine sameCore_trans (pushWatch_sameCore _ _ _) ?_
        exact sameCore_trans (eraseWatched_sameCore _ _ _ _) hA
      · rw [if_neg hcond]
        exact sameCore_trans (ih found stale _) hA

theorem processClause_inv {negLit : Int} {ci : Nat} {stale : List Nat}
    {s : State} {confl : Option Nat} {stale2 : List Nat} {s2 : State}
    (h : Inv s)
    (hp : processClause negLit ci stale s = some (confl, stale2, s2)) :
    Inv s2 := by
  simp only [processClause] at hp
  rcases hc : s.clauses.get? ci with _ | c
  · simp only [hc] at hp; exact Option.noConfusion hp
  · simp only [hc] at hp
    by_cases hb : s.values c.blocker = 1
    · rw [if_pos hb] at hp
      obtain ⟨he1, he2⟩ := Prod.mk.inj (Option.some.inj hp)
      obtain ⟨he2a, he2b⟩ := Prod.mk.inj he2
      rw [← he2b]; exact h
    · rw [if_neg hb] at hp
      by_cases hv2 : s.values (if c.watch1 = negLit then c.watch2 else c.watch1) = 1
      · rw [if_pos hv2] at hp
        obtain ⟨he1, he2⟩ := Prod.mk.inj (Option.some.inj hp)
        obtain ⟨he2a, he2b⟩ := Prod.mk.inj he2
        rw [← he2b]; exact h
      · rw [if_neg hv2] at hp
        rcases hsc : scanLits negLit (if c.watch1 = negLit then c.watch2 else c.watch1)
            ci c.lits false stale s with ⟨found, stale3, s3⟩
        simp only [hsc] at hp
        have hcore : sameCore s3 s := by
          have := scanLits_sameCore negLit
            (if c.watch1 = negLit then c.watch2 else c.watch1) ci c.lits false stale s
          rw [hsc] at this
          exact this
        have h3 : Inv s3 := inv_sameCore hcore h
        by_cases hfound : found = true
        · rw [if_pos hfound] at hp
          obtain ⟨he1, he2⟩ := Prod.mk.inj (Option.some.inj hp)
          obtain ⟨he2a, he2b⟩ := Prod.mk.inj he2
          rw [← he2b]; exact h3
        · rw [if_neg hfound] at hp
          by_cases hm1 : s3.values (if c.watch1 = negLit then c.watch2 else c.watch1) = -1
          · rw [if_pos hm1] at hp
            obtain ⟨he1, he2⟩ := Prod.mk.inj (Option.some.inj hp)
            obtain ⟨he2a, he2b⟩ := Prod.mk.inj he2
            rw [← he2b]
            refine inv_sameCore ?_ h3
            exact ⟨rfl, rfl, rfl, rfl, rfl, rfl⟩
          · rw [if_neg hm1] at hp
            by_cases hm0 : s3.values (if c.watch1 = negLit then c.watch2 else c.watch1) = 0
            · rw [if_pos hm0] at hp
              rcases ha : assignLit (if c.watch1 = negLit then c.watch2 else c.watch1)
                  (some ci) s3 with _ | s4
              · rw [ha] at hp; exact Option.noConfusion hp
              · rw [ha] at hp
                obtain ⟨he1, he2⟩ := Prod.mk.inj (Option.some.inj hp)
                obtain ⟨he2a, he2b⟩ := Prod.mk.inj he2
                rw [← he2b]
                exact assignLit_inv h3.toPreInv
                  (fun k hk => le_of_lt (h3.controlBound k hk)) ha
            · rw [if_neg hm0] at hp
              obtain ⟨he1, he2⟩ := Prod.mk.inj (Option.some.inj hp)
              obtain ⟨he2a, he2b⟩ := Prod.mk.inj he2
              rw [← he2b]; exact h3

theorem enumWatches_inv {negLit : Int} :
    ∀ rem i stale (s : State) {r : Option Nat} {s2 : State}, Inv s →
      enumWatches negLit rem i stale s = some (r, s2) → Inv s2 := by
  intro rem
  induction rem with
  | zero =>
    intro i stale s r s2 h he
    rw [enumWatches] at he
    obtain ⟨he1, he2⟩ := Prod.mk.inj (Option.some.inj he)
    rw [← he2]; exact h
  | succ rem ih =>
    intro i stale s r s2 h he
    rw [enumWatches] at he
    rcases hg : (s.watched negLit ++ stale).get? i with _ | ci
    · simp only [hg] at he; exact Option.noConfusion he
    · simp only [hg] at he
      rcases hp : processClause negLit ci stale s with _ | ⟨confl, stale3, s3⟩
      · simp only [hp] at he; exact Option.noConfusion he
      · simp only [hp] at he
        rcases confl with _ | c0
        · exact ih (i + 1) stale3 s3 (processClause_inv h hp) he
        · obtain ⟨he1, he2⟩ := Prod.mk.inj (Option.some.inj he)
          rw [← he2]
          exact processClause_inv h hp

theorem propLitStep_inv {s : State} {r : Option Nat} {s2 : State} (h : Inv s)
    (hp : propLitStep s = some (r, s2)) : Inv s2 := by
  simp only [propLitStep] at hp
  rcases hg : s.trail.get? s.propagated with _ | lit
  · simp only [hg] at hp; exact Option.noConfusion hp
  · simp only [hg] at hp
    refine enumWatches_inv _ _ _ _ (inv_sameCore ?_ h) hp
    exact ⟨rfl, rfl, rfl, rfl, rfl, rfl⟩

theorem propagateF_inv :
    ∀ fuel (s : State) {r : Option Nat} {s2 : State}, Inv s →
      propagateF fuel s = some (r, s2) → Inv s2 := by
  intro fuel
  induction fuel with
  | zero => intro s r s2 _ hp; exact absurd hp (by simp [propagateF])
  | succ fuel ih =>
    intro s r s2 h hp
    rw [propagateF] at hp
    by_cases hq : s.propagated = s.trail.length
    · rw [if_pos hq] at hp
      obtain ⟨he1, he2⟩ := Prod.mk.inj (Option.some.inj hp)
      rw [← he2]; exact h
    · rw [if_neg hq] at hp
      rcases hs : propLitStep s with _ | ⟨r1, s3⟩
      · simp only [hs] at hp; exact Option.noConfusion hp
      · simp only [hs] at hp
        rcases r1 with _ | c0
        · exact ih s3 (propLitStep_inv h hs) hp
        · obtain ⟨he1, he2⟩ := Prod.mk.inj (Option.some.inj hp)
          rw [← he2]
          exact propLitStep_inv h hs

theorem propagateLits_inv :
    ∀ k (s : State) {s2 : State}, Inv s →
      propagateLits k s = some s2 → Inv s2 := by
  intro k
  induction k with
  | zero =>
    intro s s2 h hp
    obtain rfl := Option.some.inj hp
    exact h
  | succ k ih =>
    intro s s2 h hp
    rw [propagateLits] at hp
    by_cases hq : s.propagated = s.trail.length
    · rw [if_pos hq] at hp
      obtain rfl := Option.some.inj hp
      exact h
    · rw [if_neg hq] at hp
      rcases hs : propLitStep s with _ | ⟨r1, s3⟩
      · simp only [hs] at hp; exact Option.noConfusion hp
      · simp only [hs] at hp
        exact ih s3 (propLitStep_inv h hs) hp

theorem analyzeLit_sameCore {lit : Int} {acc acc2 : State × Nat × Nat}
    (ha : analyzeLit lit acc = some acc2) : sameCore acc2.1 acc.1 := by
  simp only [analyzeLit] at ha
  by_cases h1 : acc.1.values lit = 0
  · rw [if_pos h1] at ha; exact Option.noConfusion ha
  · rw [if_neg h1] at ha
    by_cases h2 : acc.1.levels lit.natAbs = 0 ∨
        acc.1.stamped lit.natAbs = acc.1.conflicts
    · rw [if_pos h2] at ha
      obtain rfl := Option.some.inj ha
      exact sameCore_refl _
    · rw [if_neg h2] at ha
      by_cases h3 : 0 ≤ acc.1.values lit
      · rw [if_pos h3] at ha; exact Option.noConfusion ha
      · rw [if_neg h3] at ha
        by_cases h4 : acc.1.levels lit.natAbs = acc.1.level
        · rw [if_pos h4] at ha
          obtain rfl := Option.some.inj ha
          exact ⟨rfl, rfl, rfl, rfl, rfl, rfl⟩
        · rw [if_neg h4] at ha
          obtain rfl := Option.some.inj ha
          exact ⟨rfl, rfl, rfl, rfl, rfl, rfl⟩

theorem analyzeClauseLits_sameCore :
    ∀ (lits : List Int) (acc acc2 : State × Nat × Nat),
      analyzeClauseLits lits acc = some acc2 → sameCore acc2.1 acc.1 := by
  intro lits
  induction lits with
  | nil =>
    intro acc acc2 h
    simp only [analyzeClauseLits] at h
    obtain rfl := Option.some.inj h
    exact sameCore_refl _
  | cons l rest ih =>
    intro acc acc2 h
    simp only [analyzeClauseLits] at h
    rcases ha : analyzeLit l acc with _ | accA
    · simp only [ha] at h; exact Option.noConfusion h
    · simp only [ha] at h
      exact sameCore_trans (ih accA acc2 h) (analyzeLit_sameCore ha)

theorem walkCurrent_sameCore :
    ∀ p (s : State) curC low p1 (s2 : State) c2 l2,
      walkCurrent p s curC low = some (p1, s2, c2, l2) → sameCore s2 s := by
  intro p
  induction p with
  | zero =>
    intro s curC low p1 s2 c2 l2 h
    rw [walkCurrent] at h
    by_cases h1 : curC ≤ 1
    · rw [if_pos h1] at h
      obtain ⟨he1, he2⟩ := Prod.mk.inj (Option.some.inj h)
      obtain ⟨he2a, he2b⟩ := Prod.mk.inj he2
      rw [← he2a]
      exact sameCore_refl _
    · rw [if_neg h1] at h; exact Option.noConfusion h
  | succ p ih =>
    intro s curC low p1 s2 c2 l2 h
    rw [walkCurrent] at h
    by_cases h1 : curC ≤ 1
    · rw [if_pos h1] at h
      obtain ⟨he1, he2⟩ := Prod.mk.inj (Option.some.inj h)
      obtain ⟨he2a, he2b⟩ := Prod.mk.inj he2
      rw [← he2a]
      exact sameCore_refl _
    · rw [if_neg h1] at h
      rcases hg : s.trail.get? p with _ | lit
      · simp only [hg] at h; exact Option.noConfusion h
      · simp only [hg] at h
        by_cases hst : s.stamped lit.natAbs = s.conflicts
        · rw [if_pos hst] at h
          rcases hr : s.reasons lit.natAbs with _ | r
          · simp only [hr] at h
            exact ih s (curC - 1) low p1 s2 c2 l2 h
          · simp only [hr] at h
            rcases hcl : s.clauses.get? r with _ | c
            · simp only [hcl] at h; exact Option.noConfusion h
            · simp only [hcl] at h
              rcases hac : analyzeClauseLits c.lits (s, curC, low) with _ | ⟨sx, cx, lx⟩
              · simp only [hac] at h; exact Option.noConfusion h
              · simp only [hac] at h
                exact sameCore_trans (ih sx (cx - 1) lx p1 s2 c2 l2 h)
                  (analyzeClauseLits_sameCore c.lits (s, curC, low) (sx, cx, lx) hac)
        · rw [if_neg hst] at h
          exact ih s curC low p1 s2 c2 l2 h

theorem analyzeCandidate_sameCore {s : State} {ci : Nat} {mid : AnalyzeMid}
    (ha : analyzeCandidate s ci = some mid) : sameCore mid.st s := by
  simp only [analyzeCandidate] at ha
  rcases hc : s.clauses.get? ci with _ | c
  · simp only [hc] at ha; exact Option.noConfusion ha
  · simp only [hc] at ha
    rcases hac : analyzeClauseLits c.lits (s, 0, 0) with _ | ⟨s1, curC, low⟩
    · simp only [hac] at ha; exact Option.noConfusion ha
    · simp only [hac] at ha
      rcases hwc : walkCurrent s1.trail.length s1 curC low with _ | ⟨p1, s2x, cx, low2⟩
      · simp only [hwc] at ha; exact Option.noConfusion ha
      · simp only [hwc] at ha
        rcases hsu : skipUnstamped p1 s2x with _ | pu
        · simp only [hsu] at ha; exact Option.noConfusion ha
        · simp only [hsu] at ha
          rcases hgt : s2x.trail.get? (pu - 1) with _ | uip
          · simp only [hgt] at ha; exact Option.noConfusion ha
          · simp only [hgt] at ha
            rcases hwl : walkLower (pu - 1) s2x low2 [] 0 with _ | ⟨learned, bj⟩
            · simp only [hwl] at ha; exact Option.noConfusion ha
            · simp only [hwl] at ha
              obtain rfl := Option.some.inj ha
              exact sameCore_trans (walkCurrent_sameCore _ _ _ _ _ _ _ _ hwc)
                (analyzeClauseLits_sameCore c.lits (s, 0, 0) (s1, curC, low) hac)

theorem analyzeF_inv {s : State} {ci : Nat} {s2 : State} (h : Inv s)
    (ha : analyzeF s ci = some s2) : Inv s2 := by
  simp only [analyzeF] at ha
  rcases hm : analyzeCandidate s ci with _ | mid
  · simp only [hm] at ha; exact Option.noConfusion ha
  · simp only [hm] at ha
    have hmid : Inv mid.st := inv_sameCore (analyzeCandidate_sameCore hm) h
    rcases hb : backtrackF mid.backjump mid.st with _ | s3
    · simp only [hb] at ha; exact Option.noConfusion ha
    · simp only [hb] at ha
      obtain ⟨h3, hl3⟩ := backtrackF_inv hmid hb
      by_cases hlen : (minimizeLearned mid.learned mid.st ++ [-mid.uip]).length > 1
      · rw [if_pos hlen] at ha
        rcases hadd : addClause (minimizeLearned mid.learned mid.st ++ [-mid.uip]) s3
            with _ | ⟨nci, s4⟩
        · simp only [hadd] at ha; exact Option.noConfusion ha
        · simp only [hadd] at ha
          have h4 : Inv s4 := addClause_inv h3 hadd
          rcases has : assignLit (-mid.uip) (some nci) s4 with _ | s5
          · simp only [has] at ha; exact Option.noConfusion ha
          · simp only [has] at ha
            have h5 : Inv s5 := assignLit_inv h4.toPreInv
              (fun k hk => le_of_lt (h4.controlBound k hk)) has
            by_cases hbj : mid.backjump < usub1 s5.level
            · rw [if_pos hbj] at ha
              obtain rfl := Option.some.inj ha
              refine inv_sameCore ?_ h5
              exact ⟨rfl, rfl, rfl, rfl, rfl, rfl⟩
            · rw [if_neg hbj] at ha
              obtain rfl := Option.some.inj ha
              exact h5
      · rw [if_neg hlen] at ha
        rcases has : assignLit (-mid.uip) none s3 with _ | s5
        · simp only [has] at ha; exact Option.noConfusion ha
        · simp only [has] at ha
          have h5 : Inv s5 := assignLit_inv h3.toPreInv
            (fun k hk => le_of_lt (h3.controlBound k hk)) has
          by_cases hbj : mid.backjump < usub1 s5.level
          · rw [if_pos hbj] at ha
            obtain rfl := Option.some.inj ha
            refine inv_sameCore ?_ h5
            exact ⟨rfl, rfl, rfl, rfl, rfl, rfl⟩
          · rw [if_neg hbj] at ha
            obtain rfl := Option.some.inj ha
            exact h5

theorem inv_of_reachable {s : State} (h : Reachable s) : Inv s := by
  induction h with
  | init n => exact inv_init n
  | ofAdd _ ha ih => exact addClause_inv ih ha
  | ofPropagate _ hp ih => exact propagateF_inv _ _ ih hp
  | ofPropagateLits _ hp ih => exact propagateLits_inv _ _ ih hp
  | ofAnalyze _ ha ih => exact analyzeF_inv ih ha
  | ofDecide _ hd ih => exact decideF_inv ih hd

/-! ## Theorems settling the claims -/

/-- **C1** (code bug): on `cnfA`, which contains no empty clause, the
driver returns SATISFIABLE (exit code 10) and the assignment held in
`values` is total over variables 1..3, yet the stored clause with handle
4, namely `[1, 3]`, has no true literal under that assignment — the
claimed soundness of SATISFIABLE answers fails on the code.  The in-place
`erase` from `watched[3]` during the range-based iteration skips two
clauses, one of which was unit, and the unit `[1, 3]` is skipped again
when `-1` is propagated. -/
theorem claim1_sat_soundness_violated :
    (stateAfter cnfA 3).emptyClause = false ∧
    runResult 3 cnfA 20 20 = some 10 ∧
    (runState 3 cnfA 20 20).map
      (fun s => s.clauses.map (fun c => clauseSatisfied s c)) =
      some [true, true, true, true, false, true] ∧
    (runState 3 cnfA 20 20).map
      (fun s => ((s.clauses.get? 4).map Clause.lits,
                  s.values 1, s.values 2, s.values 3)) =
      some (some [1, 3], -1, 1, -1) :=
  ⟨rfl, rfl, rfl, rfl⟩

/-- **C2** (counterexample): in the reachable propagation state `stateB`
on `cnfB`, clause 2 is enumerated from `watched[2]` while its other
watched literal 5 is unassigned and its non-watched literal 4 is true
(hence not false), so the claim requires the watch to move off the
falsified literal 2; the code instead takes the blocker shortcut
(`values[blocker] == 1`) and leaves every watch list unchanged, refuting
the claim as stated. -/
theorem claim2_counterexample :
    (stateB.clauses.get? 2).map (fun c => (c.lits, c.watch1, c.watch2, c.blocker)) =
      some ([3, 5, 2, 4], 2, 5, 4) ∧
    stateB.values 2 = -1 ∧ stateB.values 5 = 0 ∧ stateB.values 4 = 1 ∧
    stateB.watched 2 = [2] ∧
    c2ClaimB stateB 2 2 = false :=
  ⟨rfl, rfl, rfl, rfl, rfl, rfl⟩

/-- **C3** (code bug): on `cnfC` the propagation following the first
conflict analysis returns no conflict, yet the learned clause (handle 2,
size 3) has both watched literals `-2` and `-1` false: `add_clause`
installs the watches on `literals[0]` and `literals[1]` of the learned
clause, which are lower-level false literals, violating the claimed watch
invariant at a quiescent point. -/
theorem claim3_watch_invariant_violated :
    ((iterBody 20 4 (stateAfter cnfC 4)).bind (propagateF 20)).map Prod.fst =
      some none ∧
    (stateC.clauses.get? 2).map (fun c => (c.lits, c.watch1, c.watch2)) =
      some ([-2, -1, -3], -2, -1) ∧
    stateC.values (-2) = -1 ∧ stateC.values (-1) = -1 :=
  ⟨rfl, rfl, rfl, rfl⟩

/-- **C5** (counterexample): at the first conflict of `cnfD` the candidate
learned clause is `[-3, -1]`; the literal `-3` satisfies the claimed
removal condition (its antecedent `[3, 2, -1]` has `-1` in the candidate
and `2` assigned at level 0), yet the code's minimization keeps it, because
the code requires every other antecedent literal to be a member of the
candidate vector and has no level-0 exemption.  This refutes the claimed
"exactly when" characterization. -/
theorem claim5_counterexample :
    (solveToConflict 20 20 (stateAfter cnfD 4)).map Prod.fst = some 2 ∧
    midD.learned = [-3, -1] ∧
    midD.st.levels 2 = 0 ∧
    c5ClaimRemovable midD.st midD.learned (-3) = true ∧
    minimizeLearned midD.learned midD.st = [-3, -1] ∧
    c5ClaimB midD.st midD.learned = false :=
  ⟨rfl, rfl, rfl, rfl, rfl, rfl⟩

/-- **C6** (code bug): on `cnfE` the only conflict analysis starts at
conflict level L = 1 and computes backjump level B = 0, so L − B = 1 ≤ 1
and the claim says `backjumps` must stay 0; the code nevertheless
increments it to 1, because the comparison `backjump < level - 1` is
evaluated after `backtrack` has already set `level = backjump`, where the
unsigned `level - 1` wraps around for `level = 0`. -/
theorem claim6_backjump_counter_bug :
    (solveToConflict 20 20 (stateAfter cnfE 2)).map Prod.fst = some 3 ∧
    stateE.level = 1 ∧ stateE.backjumps = 0 ∧
    (analyzeCandidate stateE 3).map AnalyzeMid.backjump = some 0 ∧
    (analyzeF stateE 3).map State.backjumps = some 1 ∧
    (analyzeF stateE 3).map State.level = some 0 :=
  ⟨rfl, rfl, rfl, rfl, rfl, rfl⟩


/-- **C4**: in every iteration of the `solve` loop, a conflict at level 0
returns UNSATISFIABLE (20); a conflict at level ≥ 1 runs `analyze` and
loops; no conflict with a full trail (all N variables assigned) returns
SATISFIABLE (10); no conflict with the conflict count at the configured
limit returns UNKNOWN (0); and only otherwise is a decision made. -/
theorem claim4_driver_dispatch (pf fuel : Nat) (s s1 : State) (ci : Nat) :
    (propagateF pf s = some (some ci, s1) → s1.level = 0 →
      solveLoop pf (fuel + 1) s = some (20, s1)) ∧
    (propagateF pf s = some (some ci, s1) → s1.level ≠ 0 →
      solveLoop pf (fuel + 1) s =
        match analyzeF s1 ci with
        | none => none
        | some s2 => solveLoop pf fuel s2) ∧
    (propagateF pf s = some (none, s1) → s1.trail.length = s1.numVars →
      solveLoop pf (fuel + 1) s = some (10, s1)) ∧
    (propagateF pf s = some (none, s1) → s1.trail.length ≠ s1.numVars →
      s1.limit ≤ s1.conflicts → solveLoop pf (fuel + 1) s = some (0, s1)) ∧
    (propagateF pf s = some (none, s1) → s1.trail.length ≠ s1.numVars →
      s1.conflicts < s1.limit →
      solveLoop pf (fuel + 1) s =
        match decideF s1 with
        | none => none
        | some s2 => solveLoop pf fuel s2) := by
  refine ⟨fun h h0 => ?_, fun h h0 => ?_, fun h h0 => ?_,
          fun h h0 h1 => ?_, fun h h0 h1 => ?_⟩ <;>
    simp_all [solveLoop, Nat.not_le]

/-- Witness for C4: on the input with the single clause `[1]`, propagation
completes with the full trail `[1]` and the driver returns SATISFIABLE. -/
theorem claim4_driver_dispatch_witness :
    propagateF 5 (stateAfter [[1]] 1) = some (none, stateW) ∧
    stateW.trail.length = stateW.numVars ∧
    solveLoop 5 5 (stateAfter [[1]] 1) = some (10, stateW) :=
  ⟨rfl, rfl, (claim4_driver_dispatch 5 4 (stateAfter [[1]] 1) stateW 0).2.2.1 rfl rfl⟩


/-- **C8**: the size-dependent side effects of `add_clause` at a level-0
state: the empty clause records empty-clause-found; a unit clause is
assigned at level 0 with antecedent none when unassigned, records
empty-clause-found when already false, and changes no assignment when
already true; a clause of size ≥ 2 gets its watched positions set to
`literals[0]` and `literals[1]` and its handle appended to exactly those
two watch lists, with no assignment change. -/
theorem claim8_add_clause_effects (s : State) (u a b : Int) (rest : List Int) :
    (∃ s2, addClause [] s = some (s.clauses.length, s2) ∧ s2.emptyClause = true ∧
       s2.values = s.values ∧ s2.trail = s.trail ∧ s2.watched = s.watched) ∧
    (s.level = 0 → s.values u = 0 → s.values (-u) = 0 → u ≠ 0 →
      ∃ s2, addClause [u] s = some (s.clauses.length, s2) ∧
        s2.values u = 1 ∧ s2.levels u.natAbs = 0 ∧ s2.reasons u.natAbs = none ∧
        s2.trail = s.trail ++ [u] ∧ s2.emptyClause = s.emptyClause ∧
        s2.watched = s.watched) ∧
    (s.values u < 0 →
      ∃ s2, addClause [u] s = some (s.clauses.length, s2) ∧
        s2.emptyClause = true ∧ s2.values = s.values ∧ s2.trail = s.trail ∧
        s2.watched = s.watched) ∧
    (s.values u = 1 →
      ∃ s2, addClause [u] s = some (s.clauses.length, s2) ∧
        s2.values = s.values ∧ s2.trail = s.trail ∧
        s2.emptyClause = s.emptyClause ∧ s2.watched = s.watched) ∧
    (a ≠ 0 → b ≠ 0 → a ≠ b →
      ∃ s2, addClause (a :: b :: rest) s = some (s.clauses.length, s2) ∧
        (s2.clauses.get? s.clauses.length).map (fun c => (c.lits, c.watch1, c.watch2)) =
          some (a :: b :: rest, a, b) ∧
        s2.watched a = s.watched a ++ [s.clauses.length] ∧
        s2.watched b = s.watched b ++ [s.clauses.length] ∧
        (∀ x, x ≠ a → x ≠ b → s2.watched x = s.watched x) ∧
        s2.values = s.values ∧ s2.trail = s.trail ∧
        s2.emptyClause = s.emptyClause) := by
  refine ⟨⟨_, rfl, ?_, ?_, ?_, ?_⟩, ?_, ?_, ?_, ?_⟩
  · simp [modifyClause_emptyClause]
  · simp [modifyClause_values]
  · simp [modifyClause_trail]
  · simp [modifyClause_watched]
  · intro hl h2 h3 h4
    have key := assignLit_eq u none
      { s with clauses := s.clauses ++ [{ lits := [u], watch1 := 0, watch2 := 0, blocker := 0 }] }
      h4 h2 h3
    have keyAdd : addClause [u] s = some (s.clauses.length,
        modifyClause s.clauses.length (fun c => { c with blocker := u })
          { s with
            clauses := s.clauses ++ [{ lits := [u], watch1 := 0, watch2 := 0, blocker := 0 }]
            values := fun x => if x = u then 1 else if x = -u then -1 else s.values x
            levels := fun v => if v = u.natAbs then s.level else s.levels v
            reasons := fun v => if v = u.natAbs then none else s.reasons v
            trail := s.trail ++ [u]
            fixedCount := if s.level = 0 then s.fixedCount + 1 else s.fixedCount }) := by
      unfold addClause
      simp only [key, h2, if_pos, ite_true, List.headD]
    refine ⟨_, keyAdd, ?_, ?_, ?_, ?_, ?_, ?_⟩
    · simp [modifyClause_values]
    · simp [modifyClause_levels, hl]
    · simp [modifyClause_reasons]
    · simp [modifyClause_trail]
    · simp [modifyClause_emptyClause]
    · simp [modifyClause_watched]
  · intro h2
    have keyAdd : addClause [u] s = some (s.clauses.length,
        modifyClause s.clauses.length (fun c => { c with blocker := u })
          { s with
            clauses := s.clauses ++ [{ lits := [u], watch1 := 0, watch2 := 0, blocker := 0 }]
            emptyClause := true }) := by
      unfold addClause
      have hne : ¬ s.values u = 0 := by omega
      simp only [List.headD]
      rw [if_neg hne, if_pos h2]
    refine ⟨_, keyAdd, ?_, ?_, ?_, ?_⟩
    · simp [modifyClause_emptyClause]
    · simp [modifyClause_values]
    · simp [modifyClause_trail]
    · simp [modifyClause_watched]
  · intro h2
    have keyAdd : addClause [u] s = some (s.clauses.length,
        modifyClause s.clauses.length (fun c => { c with blocker := u })
          { s with
            clauses := s.clauses ++ [{ lits := [u], watch1 := 0, watch2 := 0, blocker := 0 }] }) := by
      unfold addClause
      have hne : ¬ s.values u = 0 := by omega
      have hne2 : ¬ s.values u < 0 := by omega
      simp only [List.headD]
      rw [if_neg hne, if_neg hne2]
    refine ⟨_, keyAdd, ?_, ?_, ?_, ?_⟩
    · simp [modifyClause_values]
    · simp [modifyClause_trail]
    · simp [modifyClause_emptyClause]
    · simp [modifyClause_watched]
  · intro ha hb hab
    have e1 : (modifyClause s.clauses.length
        (fun c => { c with watch1 := a, watch2 := b })
        { s with clauses := s.clauses ++
          [{ lits := a :: b :: rest, watch1 := 0, watch2 := 0, blocker := 0 }] }).clauses =
        s.clauses ++ [{ lits := a :: b :: rest, watch1 := a, watch2 := b, blocker := 0 }] :=
      modifyClause_concat _ s.clauses _ _ _ rfl rfl
    refine ⟨_, rfl, ?_, ?_, ?_, ?_, ?_, ?_, ?_⟩
    · have e3 : (modifyClause s.clauses.length
          (fun c => { c with blocker := (a :: b :: rest).headD 0 })
          (pushWatch b s.clauses.length (pushWatch a s.clauses.length
            (modifyClause s.clauses.length
              (fun c => { c with watch1 := a, watch2 := b })
              { s with clauses := s.clauses ++
                [{ lits := a :: b :: rest, watch1 := 0, watch2 := 0, blocker := 0 }] })))).clauses =
          s.clauses ++ [{ lits := a :: b :: rest, watch1 := a, watch2 := b, blocker := a }] := by
        refine modifyClause_concat _ s.clauses
          { lits := a :: b :: rest, watch1 := a, watch2 := b, blocker := 0 } _ _ ?_ rfl
        rw [pushWatch_clauses, pushWatch_clauses, e1]
      rw [e3, List.get?_concat_length]
      rfl
    · rw [modifyClause_watched, pushWatch_watched_other b _ _ a hab,
        pushWatch_watched_self a _ _ ha, modifyClause_watched]
    · rw [modifyClause_watched, pushWatch_watched_self b _ _ hb,
        pushWatch_watched_other a _ _ b (Ne.symm hab), modifyClause_watched]
    · intro x hxa hxb
      rw [modifyClause_watched, pushWatch_watched_other b _ _ x hxb,
        pushWatch_watched_other a _ _ x hxa, modifyClause_watched]
    · rw [modifyClause_values, pushWatch_values, pushWatch_values, modifyClause_values]
    · rw [modifyClause_trail, pushWatch_trail, pushWatch_trail, modifyClause_trail]
    · rw [modifyClause_emptyClause, pushWatch_emptyClause, pushWatch_emptyClause,
        modifyClause_emptyClause]


/-- Witness for C8: adding the unit clause `[1]` and the binary clause
`[1, 2]` to the freshly initialized two-variable solver. -/
theorem claim8_add_clause_effects_witness :
    (∃ s2, addClause [1] (initState 2) = some (0, s2) ∧
       s2.values 1 = 1 ∧ s2.levels 1 = 0 ∧ s2.reasons 1 = none ∧
       s2.trail = [1] ∧ s2.emptyClause = false ∧
       s2.watched = (initState 2).watched) ∧
    (∃ s2, addClause [1, 2] (initState 2) = some (0, s2) ∧
       (s2.clauses.get? 0).map (fun c => (c.lits, c.watch1, c.watch2)) =
         some ([1, 2], 1, 2) ∧
       s2.watched 1 = [0] ∧
       s2.watched 2 = [0] ∧
       (∀ x, x ≠ 1 → x ≠ 2 → s2.watched x = (initState 2).watched x) ∧
       s2.values = (initState 2).values ∧ s2.trail = [] ∧
       s2.emptyClause = false) :=
  ⟨(claim8_add_clause_effects (initState 2) 1 1 2 []).2.1 rfl rfl rfl (by decide),
   (claim8_add_clause_effects (initState 2) 1 1 2 []).2.2.2.2
     (by decide) (by decide) (by decide)⟩


/-- **C5** (amended): learned-clause minimization removes a non-UIP
literal only if it has a non-none antecedent whose every literal over a
different variable is present (same sign) in the original candidate; a
literal whose antecedent is none is never removed; and the UIP literal is
never removed, being appended to the learned clause after the
minimization pass. -/
theorem claim5_amended_minimization (s : State) (cand : List Int) (lit : Int) :
    (lit ∈ cand → s.reasons lit.natAbs = none → lit ∈ minimizeLearned cand s) ∧
    (lit ∈ cand → lit ∉ minimizeLearned cand s →
      ∃ r c, s.reasons lit.natAbs = some r ∧ s.clauses.get? r = some c ∧
        ∀ other ∈ c.lits, other.natAbs = lit.natAbs ∨ other ∈ cand) ∧
    (∀ ci mid, analyzeCandidate s ci = some mid →
      -mid.uip ∈ minimizeLearned mid.learned mid.st ++ [-mid.uip]) :=
  ⟨fun hm hn => minimizeLoop_none_kept s cand.length 0 cand [] lit hm hn,
   fun hm hn =>
     minimizeLoop_keeps s cand.length 0 cand [] cand (fun _ hx => hx) lit hm hn,
   fun _ mid _ => List.mem_append_right _ (List.mem_singleton_self _)⟩

/-- Witness for the amended C5, at the first conflict of `cnfD`: the
decision literal `-1` of the candidate `[-3, -1]` survives minimization,
and the UIP literal is in the final learned clause. -/
theorem claim5_amended_minimization_witness :
    ((-1 : Int) ∈ minimizeLearned [-3, -1] midD.st) ∧
    (-midD.uip ∈ minimizeLearned midD.learned midD.st ++ [-midD.uip]) :=
  ⟨(claim5_amended_minimization midD.st [-3, -1] (-1)).1 (by decide) rfl,
   (claim5_amended_minimization stateD [-3, -1] (-1)).2.2 2 midD rfl⟩


/-- **C2** (amended): processing of one clause `ci` (with watches
`c.watch1`, `c.watch2`, one of which is the falsified literal `negLit`)
enumerated from `watched[negLit]` during propagation.  If the cached
blocker literal is true, or the other watched literal is true, everything
is left unchanged; otherwise if the clause contains a non-watched literal
whose value is not false, the watch moves from `negLit` to the first such
literal; otherwise a false other watch is returned as a conflict and an
unassigned other watch is assigned with this clause as antecedent, the
watch on `negLit` being retained in both cases. -/
theorem claim2_amended_propagate_cases (s : State) (negLit : Int) (ci : Nat)
    (c : Clause) (stale : List Nat)
    (hc : s.clauses.get? ci = some c)
    (hneg : s.values negLit = -1)
    (hw : (c.watch1 = negLit ∧ c.watch2 ≠ negLit) ∨ (c.watch2 = negLit ∧ c.watch1 ≠ negLit))
    (hw10 : c.watch1 ≠ 0) (hw20 : c.watch2 ≠ 0)
    (hlits0 : ∀ y ∈ c.lits, y ≠ 0)
    (hsign : ∀ l : Int, l ≠ 0 → s.values (-l) = -s.values l)
    (hsmall : ∀ l : Int, s.values l = -1 ∨ s.values l = 0 ∨ s.values l = 1) :
    (s.values c.blocker = 1 →
      processClause negLit ci stale s = some (none, stale, s)) ∧
    (s.values c.blocker ≠ 1 → s.values (otherWatch c negLit) = 1 →
      processClause negLit ci stale s = some (none, stale, s)) ∧
    (s.values c.blocker ≠ 1 → s.values (otherWatch c negLit) = -1 →
      (∀ x ∈ c.lits, ¬(s.values x ≠ -1 ∧ c.watch1 ≠ x ∧ c.watch2 ≠ x)) →
      processClause negLit ci stale s =
        some (some ci, stale, { s with conflicts := s.conflicts + 1 })) ∧
    (s.values c.blocker ≠ 1 → s.values (otherWatch c negLit) = 0 →
      (∀ x ∈ c.lits, ¬(s.values x ≠ -1 ∧ c.watch1 ≠ x ∧ c.watch2 ≠ x)) →
      ∃ s2, assignLit (otherWatch c negLit) (some ci) s = some s2 ∧
        processClause negLit ci stale s = some (none, stale, s2)) ∧
    (s.values c.blocker ≠ 1 → s.values (otherWatch c negLit) ≠ 1 →
      ∀ pre x post, c.lits = pre ++ x :: post →
      (∀ y ∈ pre, ¬(s.values y ≠ -1 ∧ c.watch1 ≠ y ∧ c.watch2 ≠ y)) →
      s.values x ≠ -1 → c.watch1 ≠ x → c.watch2 ≠ x →
      ∃ stale2 s2, processClause negLit ci stale s = some (none, stale2, s2) ∧
        s2.watched negLit = (s.watched negLit).filter (fun h => h ≠ ci) ∧
        s2.watched x = s.watched x ++ [ci] ∧
        (∀ y, y ≠ negLit → y ≠ x → s2.watched y = s.watched y) ∧
        s2.values = s.values ∧ s2.trail = s.trail ∧ s2.conflicts = s.conflicts ∧
        (∃ bl, s2.clauses.get? ci = some
          { lits := c.lits
            watch1 := if c.watch1 = negLit then x else c.watch1
            watch2 := if c.watch1 = negLit then c.watch2 else x
            blocker := bl })) := by
  have hcheckw : otherWatch c negLit = c.watch1 ∨ otherWatch c negLit = c.watch2 := by
    unfold otherWatch; split
    · exact Or.inr rfl
    · exact Or.inl rfl
  have hcheck0 : otherWatch c negLit ≠ 0 := by
    rcases hcheckw with h | h <;> rw [h]
    · exact hw10
    · exact hw20
  refine ⟨?_, ?_, ?_, ?_, ?_⟩
  · intro hbl
    unfold processClause
    simp only [hc]
    rw [if_pos hbl]
  · intro hbl hoth
    unfold processClause
    simp only [hc]
    rw [if_neg hbl]
    rw [otherWatch] at hoth
    rw [if_pos hoth]
  · intro hbl hoth hnone
    have hnotrue : ∀ y ∈ c.lits, s.values y ≠ 1 := fun y hy =>
      no_true_literal s negLit c hneg hw (by rw [hoth]; decide) y (hnone y hy)
    have hnorep : ∀ y ∈ c.lits, ¬(s.values y > -1 ∧ c.watch1 ≠ y ∧ c.watch2 ≠ y) := by
      intro y hy hcon
      exact hnone y hy ⟨by omega, hcon.2⟩
    have hscan := scanLits_no_change negLit (otherWatch c negLit) ci c c.lits stale s
      hc hnotrue hnorep
    unfold processClause
    simp only [hc]
    rw [if_neg hbl]
    rw [otherWatch] at hoth hscan
    rw [if_neg (by rw [hoth]; decide)]
    simp only [hscan]
    rw [if_neg (by decide), if_pos hoth]
  · intro hbl hoth hnone
    have hnotrue : ∀ y ∈ c.lits, s.values y ≠ 1 := fun y hy =>
      no_true_literal s negLit c hneg hw (by rw [hoth]; decide) y (hnone y hy)
    have hnorep : ∀ y ∈ c.lits, ¬(s.values y > -1 ∧ c.watch1 ≠ y ∧ c.watch2 ≠ y) := by
      intro y hy hcon
      exact hnone y hy ⟨by omega, hcon.2⟩
    have hscan := scanLits_no_change negLit (otherWatch c negLit) ci c c.lits stale s
      hc hnotrue hnorep
    have hneg2 : s.values (-(otherWatch c negLit)) = 0 := by
      rw [hsign _ hcheck0, hoth]
      rfl
    have hassign := assignLit_eq (otherWatch c negLit) (some ci) s hcheck0 hoth hneg2
    refine ⟨_, hassign, ?_⟩
    unfold processClause
    simp only [hc]
    rw [if_neg hbl]
    rw [otherWatch] at hoth hscan hassign
    rw [if_neg (by rw [hoth]; decide)]
    simp only [hscan]
    rw [if_neg (by decide), if_neg (by rw [hoth]; decide), if_pos hoth]
    simp only [hassign]
    rfl
  · intro hbl hoth pre x post hsplit hpre hx1 hxw1 hxw2
    have hxmem : x ∈ c.lits := by
      rw [hsplit]
      exact List.mem_append_right _ (List.mem_cons_self x post)
    have hx0 : x ≠ 0 := hlits0 x hxmem
    have hxneg : x ≠ negLit := fun he => hx1 (by rw [he]; exact hneg)
    have hxgt : s.values x > -1 := by rcases hsmall x with h | h | h <;> omega
    have hpretrue : ∀ y ∈ pre, s.values y ≠ 1 := fun y hy =>
      no_true_literal s negLit c hneg hw hoth y (hpre y hy)
    have hprerep : ∀ y ∈ pre, ¬(s.values y > -1 ∧ c.watch1 ≠ y ∧ c.watch2 ≠ y) := by
      intro y hy hcon
      exact hpre y hy ⟨by omega, hcon.2⟩
    have hscanpre := scanLits_no_change negLit (otherWatch c negLit) ci c pre stale s
      hc hpretrue hprerep
    obtain ⟨stale2, s2, he2, hwn, hwx, hwy, hv, ht, hk, hclf⟩ :=
      scanLits_replace negLit (otherWatch c negLit) ci c s x post stale hc
        (by rw [otherWatch]) hw hxgt hxw1 hxw2 hx0 hxneg
    refine ⟨stale2, s2, ?_, hwn, hwx, hwy, hv, ht, hk, hclf⟩
    unfold processClause
    simp only [hc]
    rw [if_neg hbl]
    rw [otherWatch] at hoth hscanpre he2
    rw [if_neg hoth]
    rw [hsplit, scanLits_append]
    simp only [hscanpre, he2]
    rfl


theorem stateBW_sign : ∀ l : Int, l ≠ 0 → stateBW.values (-l) = -stateBW.values l := by
  intro l hl
  simp only [stateBW, initState]
  split_ifs <;> omega

theorem stateBW_small :
    ∀ l : Int, stateBW.values l = -1 ∨ stateBW.values l = 0 ∨ stateBW.values l = 1 := by
  intro l
  simp only [stateBW, initState]
  split_ifs <;> simp

/-- Witness for the amended C2, in the blocker case: clause 0 of `stateBW`
watches the false literal 2 and the unassigned literal 5, its blocker 4 is
true, and processing it leaves the state unchanged. -/
theorem claim2_amended_witness :
    processClause 2 0 [] stateBW = some (none, [], stateBW) :=
  (claim2_amended_propagate_cases stateBW 2 0
    { lits := [3, 5, 2, 4], watch1 := 2, watch2 := 5, blocker := 4 } [] rfl rfl
    (by decide) (by decide) (by decide) (by decide) stateBW_sign stateBW_small).1 rfl

theorem findUnassigned_finds :
    ∀ fuel (s : State) (start v : Int),
      start ≤ v → v ≤ (s.numVars : Int) → s.values v = 0 →
      (∀ u, start ≤ u → u < v → s.values u ≠ 0) →
      (v - start).toNat < fuel →
      findUnassigned s fuel start = some v := by
  intro fuel
  induction fuel with
  | zero => intro s start v h1 h2 h3 h4 h5; exact absurd h5 (Nat.not_lt_zero _)
  | succ fuel ih =>
    intro s start v h1 h2 h3 h4 h5
    rw [findUnassigned]
    rw [if_neg (show ¬ start > (s.numVars : Int) by omega)]
    by_cases he : start = v
    · subst he
      rw [if_pos h3]
    · have hlt : start < v := lt_of_le_of_ne h1 he
      rw [if_neg (h4 start (le_refl _) hlt)]
      exact ih s (start + 1) v (by omega) h2 h3
        (fun u hu1 hu2 => h4 u (by omega) hu2) (by omega)

theorem assignLit_some {lit : Int} {r : Option Nat} {s : State}
    (h0 : lit ≠ 0) (h1 : s.values lit = 0) (h2 : s.values (-lit) = 0) :
    assignLit lit r s = some { s with
      values := fun x => if x = lit then 1 else if x = -lit then -1 else s.values x
      levels := fun v => if v = lit.natAbs then s.level else s.levels v
      reasons := fun v => if v = lit.natAbs then r else s.reasons v
      trail := s.trail ++ [lit]
      fixedCount := if s.level = 0 then s.fixedCount + 1 else s.fixedCount } := by
  unfold assignLit
  rw [if_neg h0, if_neg (fun hne => hne h1), if_neg (fun hne => hne h2)]

theorem reachable_addAll :
    ∀ (cnf : List (List Int)) {s s2 : State}, Reachable s →
      addAll cnf s = some s2 → Reachable s2 := by
  intro cnf
  induction cnf with
  | nil =>
    intro s s2 h ha
    simp only [addAll] at ha
    obtain rfl := Option.some.inj ha
    exact h
  | cons c rest ih =>
    intro s s2 h ha
    simp only [addAll] at ha
    rcases hc : addClause c s with _ | ⟨ci, s3⟩
    · simp only [hc] at ha; exact Option.noConfusion ha
    · simp only [hc] at ha
      exact ih (Reachable.ofAdd h hc) ha

theorem reach_cnfA : Reachable (stateAfter cnfA 3) :=
  reachable_addAll cnfA (Reachable.init 3) rfl

/-- **C7** (confirmed): in every reachable quiescent solver state (initial
state closed under `add_clause`, `propagate`, `analyze` and `decide`, the
operations that separate quiescent points), every trail literal is true
under `values`, and the decision level recorded for its variable equals
the number of decision literals at trail positions ≤ its own — rendered
as the number of control-stack entries (decision-literal positions) that
are ≤ i. -/
theorem claim7_trail_consistency {s : State} (h : Reachable s) :
    ∀ i : Nat, ∀ x : Int, s.trail.get? i = some x →
      s.values x = 1 ∧ s.levels x.natAbs = countDecisionsLE s.control i :=
  (inv_of_reachable h).trailC

/-- Witness: the quiescent state after adding the six clauses of `cnfA`
(whose unit clause `[-3]` has placed `-3` on the trail) is reachable and
trail-consistent. -/
theorem claim7_trail_consistency_witness :
    Reachable (stateAfter cnfA 3) ∧
      ∀ i : Nat, ∀ x : Int, (stateAfter cnfA 3).trail.get? i = some x →
        (stateAfter cnfA 3).values x = 1 ∧
        (stateAfter cnfA 3).levels x.natAbs =
          countDecisionsLE (stateAfter cnfA 3).control i :=
  ⟨reach_cnfA, claim7_trail_consistency reach_cnfA⟩

/-- **C9** (confirmed): in every reachable state in which variable `v` is
the smallest-index unassigned variable (and some variable is unassigned,
`v` being in range), `decide` succeeds and assigns exactly the positive
literal `v` with antecedent `none`, after pushing the current trail
height onto the control stack and incrementing the decision level.  The
`searched` cursor never skips an unassigned variable because every
reachable state keeps all variables below it assigned. -/
theorem claim9_decide_smallest {s : State} (h : Reachable s) (v : Int)
    (h1 : 1 ≤ v) (h2 : v ≤ (s.numVars : Int)) (h0 : s.values v = 0)
    (hmin : ∀ w : Int, 1 ≤ w → w < v → s.values w ≠ 0) :
    ∃ s2 : State, decideF s = some s2 ∧ s2.trail = s.trail ++ [v] ∧
      s2.values v = 1 ∧ s2.reasons v.natAbs = none ∧
      s2.level = s.level + 1 ∧ s2.control = s.control ++ [s.trail.length] := by
  have hinv := inv_of_reachable h
  have hs1 : 1 ≤ s.searched := hinv.searchedC.1
  have hsv : s.searched ≤ v := by
    by_contra hlt
    push_neg at hlt
    exact (hinv.searchedC.2 v h1 hlt) h0
  have hfu : findUnassigned { s with decisions := s.decisions + 1 }
      (s.numVars + 2) s.searched = some v := by
    refine findUnassigned_finds _ _ _ _ hsv h2 h0 ?_ ?_
    · intro u hu1 hu2
      exact hmin u (le_trans hs1 hu1) hu2
    · omega
  have hv0 : v ≠ 0 := by omega
  have hneg : s.values (-v) = 0 := by
    rw [hinv.sign v hv0, h0]
    rfl
  simp only [decideF]
  rw [hfu]
  refine ⟨_, assignLit_some hv0 h0 hneg, rfl, ?_, ?_, rfl, rfl⟩
  · show (if v = v then (1 : Int) else if v = -v then -1 else s.values v) = 1
    rw [if_pos rfl]
  · show (if v.natAbs = v.natAbs then none else s.reasons v.natAbs) = none
    rw [if_pos rfl]

/-- Witness: in the reachable state after adding `cnfA` (where variable 3
is assigned by the unit clause and variables 1, 2 are free), `decide`
assigns the positive literal 1 — the smallest unassigned index — with
reason `none`, pushing the trail height and opening level 1. -/
theorem claim9_decide_smallest_witness :
    ∃ s2 : State, decideF (stateAfter cnfA 3) = some s2 ∧
      s2.trail = (stateAfter cnfA 3).trail ++ [1] ∧ s2.values 1 = 1 ∧
      s2.reasons (1 : Int).natAbs = none ∧
      s2.level = (stateAfter cnfA 3).level + 1 ∧
      s2.control = (stateAfter cnfA 3).control ++
        [(stateAfter cnfA 3).trail.length] :=
  claim9_decide_smallest reach_cnfA 1 (by decide) (by decide) (by decide)
    (fun w hw1 hw2 => absurd (lt_of_le_of_lt hw1 hw2) (lt_irrefl 1))

/-- **C10** (confirmed): in every reachable state (the points outside
`assign`/`unassign` bodies), the assignment array is sign-consistent: for
every nonzero literal `l`, `values l = -values (-l)`, and the two cells
of the variable are either both 0, or exactly one is 1 and the other is
-1.  All public operations preserve this, `Reachable` being closed under
them. -/
theorem claim10_sign_consistency {s : State} (h : Reachable s) :
    ∀ l : Int, l ≠ 0 →
      s.values l = -s.values (-l) ∧
      (s.values l = 0 ∧ s.values (-l) = 0 ∨
       s.values l = 1 ∧ s.values (-l) = -1 ∨
       s.values l = -1 ∧ s.values (-l) = 1) := by
  intro l hl
  have hinv := inv_of_reachable h
  have hs := hinv.sign l hl
  have hm := hinv.small l
  refine ⟨by omega, ?_⟩
  rcases hm with h1 | h1 | h1
  · exact Or.inr (Or.inr ⟨h1, by omega⟩)
  · exact Or.inl ⟨h1, by omega⟩
  · exact Or.inr (Or.inl ⟨h1, by omega⟩)

/-- Witness: in the reachable state after adding `cnfA`, literal 3 (made
false by the unit clause `[-3]`) has `values 3 = -1` and `values (-3) = 1`,
matching the sign-consistency clause. -/
theorem claim10_sign_consistency_witness :
    (3 : Int) ≠ 0 ∧
      ((stateAfter cnfA 3).values 3 = -(stateAfter cnfA 3).values (-3) ∧
       ((stateAfter cnfA 3).values 3 = 0 ∧ (stateAfter cnfA 3).values (-3) = 0 ∨
        (stateAfter cnfA 3).values 3 = 1 ∧ (stateAfter cnfA 3).values (-3) = -1 ∨
        (stateAfter cnfA 3).values 3 = -1 ∧ (stateAfter cnfA 3).values (-3) = 1)) :=
  ⟨by decide, claim10_sign_consistency reach_cnfA 3 (by decide)⟩

end BabySat
